import Mathlib

/-!
Verification development for the es-flame-graph repository.

This file gives a shallow embedding, in Lean 4, of the algorithmic core of
the repository: the color-hashing functions of color.py, the hierarchical
task aggregation of tasks_parser.py, and the tree building / layout /
frame collection / minimum-width filtering of flamegraph.py, together with
theorems settling the frozen claims about them.

Modelling conventions:
- Python floats are modelled as exact rationals, Python ints as Lean
  integers or naturals; all arithmetic identities are therefore exact
  (floating-point epsilon caveats of the claims are absorbed by the model).
- Python dicts are modelled as association lists in insertion order; an
  update touches the (unique) existing key in place and an insert appends.
- The one unordered container, the set of root task ids iterated by
  aggregate_by_hierarchy, is modelled in first-occurrence order; the claims
  settled here are insensitive to that order.
- Recursive Python functions whose termination is part of what is being
  verified are given an explicit fuel parameter; returning none models
  non-termination of the source.
- The pseudo-random machinery of color.py (CPython string hashing and the
  Mersenne-Twister generator) is external library state, not repository
  code; it is modelled by explicit parameters (a string-hash function, a
  seed function and a draw function) with the generator state threaded
  explicitly, exactly as the global generator of the random module is.
-/

/-! ## Numeric helpers: Python rounding -/

/-- Round-half-to-even on rationals, the rounding used by Python round()
and fixed-point string formatting. -/
def roundHalfEven (q : ℚ) : ℤ :=
  let f : ℤ := ⌊q⌋
  let r : ℚ := q - (f : ℚ)
  if r < 1/2 then f
  else if 1/2 < r then f + 1
  else if f % 2 = 0 then f else f + 1

/-- Python round(x, 6). -/
def pyRound6 (q : ℚ) : ℚ := ((roundHalfEven (q * 1000000) : ℤ) : ℚ) / 1000000

/-! ## color.py -/

/-- The effect of re.sub of the pattern "dot-star-question-backtick" with
the empty string (color.py line 29), as a single left-to-right pass.  The
non-greedy pattern matches the shortest run of non-newline characters
ending at a backtick, with matches consumed left to right, so: characters
scanned since the last match (or commit) are pending in buf; a backtick
completes a match, dropping the pending run and the backtick; a newline
proves no match can start at or before it (the dot does not cross
newlines), committing the pending run and the newline to the output; any
other character joins the pending run.  At the end of the label the
pending run is committed (no backtick ever completed a match for it). -/
def subTicksGo (buf : List Char) : List Char → List Char
  | [] => buf
  | c :: rest =>
    if c.toNat == 96 then subTicksGo [] rest
    else if c == '\n' then buf ++ c :: subTicksGo [] rest
    else subTicksGo (buf ++ [c]) rest

/-- color.py line 29: strip every shortest prefix ending in a backtick. -/
def subTicks (l : List Char) : List Char := subTicksGo [] l

/-- namehash inner loop (color.py lines 31-38).  State: (vector, max_val,
weight, mod); returns the final (vector, max_val).  Note the loop breaks
after processing a character when mod exceeds 12, and increments mod
otherwise, so mod takes the values 10, 11, 12, 13 and at most four
characters are read. -/
def namehashLoop : List Char → ℚ → ℚ → ℚ → ℕ → ℚ × ℚ
  | [], vector, maxval, _, _ => (vector, maxval)
  | c :: rest, vector, maxval, weight, m =>
    if 12 < m then
      (vector + ((c.toNat % m : ℕ) : ℚ) / ((m : ℚ) - 1) * weight, maxval + weight)
    else
      namehashLoop rest (vector + ((c.toNat % m : ℕ) : ℚ) / ((m : ℚ) - 1) * weight)
        (maxval + weight) (weight * (7/10)) (m + 1)

/-- The core of namehash on an already-stripped character list. -/
def namehashCore (l : List Char) : ℚ :=
  let p := namehashLoop l 0 1 1 10
  1 - p.1 / p.2

/-- color.py namehash: weighted positional hash of a label. -/
def namehash (name : String) : ℚ :=
  namehashCore (subTicks name.data)

/-- Modelled from the spec's words (claim C9), for comparison with the
source namehash: the same walk, but visiting every character of the
stripped label, with the modulus incremented each step and capped so that
it never exceeds 12. -/
def namehashClaimedLoop : List Char → ℚ → ℚ → ℚ → ℕ → ℚ × ℚ
  | [], vector, maxval, _, _ => (vector, maxval)
  | c :: rest, vector, maxval, weight, m =>
    let i : ℕ := c.toNat % m
    namehashClaimedLoop rest (vector + ((i : ℚ) / ((m : ℚ) - 1)) * weight)
      (maxval + weight) (weight * (7/10)) (min (m + 1) 12)

/-- The claim's description of namehash, as a function. -/
def namehash_claimed (name : String) : ℚ :=
  let p := namehashClaimedLoop (subTicks name.data) 0 1 1 10
  1 - p.1 / p.2

/-- color.py sum_namehash: hash(name) & 0xFFFFFFFF, with the CPython string
hash supplied as a parameter (it is interpreter state, not repository
code). -/
def sum_namehash (strHash : String → ℤ) (name : String) : ℤ :=
  strHash name % 4294967296

/-- color.py random_namehash with the generator state passed explicitly:
seed the generator from sum_namehash of the label, then take one draw.
The incoming generator state g is discarded by the re-seeding, which is
exactly what random.seed does to the global generator. -/
def random_namehash {σ : Type} (strHash : String → ℤ) (seedF : ℤ → σ)
    (randF : σ → ℚ × σ) (name : String) (g : σ) : ℚ × σ :=
  let h := sum_namehash strHash name
  let g1 := seedF h
  let _ := g
  randF g1

/-- The three successive draws taken by get_color (color.py lines 245-247),
threading the global generator state through the three calls. -/
def get_color_draws {σ : Type} (strHash : String → ℤ) (seedF : ℤ → σ)
    (randF : σ → ℚ × σ) (name : String) (g : σ) : (ℚ × ℚ × ℚ) × σ :=
  let p1 := random_namehash strHash seedF randF name g
  let p2 := random_namehash strHash seedF randF name p1.2
  let p3 := random_namehash strHash seedF randF name p2.2
  ((p1.1, p2.1, p3.1), p3.2)

/-! ## tasks_parser.py: data model -/

/-- tasks_parser.py TaskInfo.  The children field of the dataclass is never
populated or read by the parser and is omitted. -/
structure TaskInfo where
  node_id : String
  node_name : String
  action : String
  description : String
  running_time_nanos : ℤ
  task_id : String
  parent_task_id : String
deriving DecidableEq

/-- One entry of a children_info list built by _accumulate_task_time: the
keys time, description, action of the Python dict, plus the
_normalized_action key that merging adds (none before merging). -/
structure ChildInfo where
  time : ℤ
  description : String
  action : String
  normalized_action : Option String
deriving DecidableEq

/-- One value of the nested result dict of _aggregate_by_hierarchy. -/
structure ActionEntry where
  total_time : ℤ
  task_count : ℕ
  description : String
  children : List ChildInfo
deriving DecidableEq

/-- Update the value at the first (in a Python dict: the unique) occurrence
of a key in an association list, leaving everything else unchanged. -/
def updateFirstKey {κ β : Type} [BEq κ] (k : κ) (f : β → β) : List (κ × β) → List (κ × β)
  | [] => []
  | p :: rest => if p.1 == k then (p.1, f p.2) :: rest else p :: updateFirstKey k f rest

/-! ## tasks_parser.py: normalization and merging -/

/-- The effect of re.sub of the non-greedy bracket-group pattern (an
opening bracket, the shortest run of non-newline characters, a closing
bracket) with the empty string (tasks_parser.py line 479), as a single
left-to-right pass.  Outside a candidate group (pending = none) characters
pass through and an opening bracket opens a pending group.  Inside a
candidate group, a closing bracket completes the match and drops the
pending characters; a newline proves the match fails for the pending
opening bracket — and for every later opening bracket before the newline,
whose search range is a subset — so the pending run and the newline are
committed; any other character (including a nested opening bracket, which
the dot matches) joins the pending run.  A group still pending at the end
of the string never matched and is committed. -/
def stripBracketsGo (pending : Option (List Char)) : List Char → List Char
  | [] => match pending with
          | none => []
          | some buf => buf
  | c :: rest =>
    match pending with
    | none =>
      if c == '[' then stripBracketsGo (some [c]) rest
      else c :: stripBracketsGo none rest
    | some buf =>
      if c == ']' then stripBracketsGo none rest
      else if c == '\n' then buf ++ c :: stripBracketsGo none rest
      else stripBracketsGo (some (buf ++ [c])) rest

/-- tasks_parser.py line 479: remove every bracketed group. -/
def stripBrackets (l : List Char) : List Char := stripBracketsGo none l

/-- Python str.rstrip() whitespace set (the ASCII part, which is all that
Elasticsearch action strings contain). -/
def isPySpace (c : Char) : Bool :=
  c == ' ' || c == '\t' || c == '\n' || c == '\r' || c.toNat == 11 || c.toNat == 12

/-- Python str.rstrip() on a character list. -/
def rstripChars (l : List Char) : List Char :=
  (l.reverse.dropWhile isPySpace).reverse

/-- tasks_parser.py _normalize_action_for_merge: remove every bracketed
group, then strip trailing whitespace. -/
def normalize_action_for_merge (action : String) : String :=
  ⟨rstripChars (stripBrackets action.data)⟩

/-- The merge key of a descendant summary: the pair (normalized category,
annotation) that lines 322-324 build from a children_info entry. -/
def childKey (c : ChildInfo) : String × String :=
  (normalize_action_for_merge c.action, c.description)

/-- The merge key contributed by a task's own summary record. -/
def taskKey (u : TaskInfo) : String × String :=
  (normalize_action_for_merge u.action, u.description)

/-- Add time into the entry with the given merge key (first occurrence;
keys are unique by construction). -/
def mergeUpdateFirst (key : String × String) (time : ℤ) :
    List ((String × String) × ChildInfo) → List ((String × String) × ChildInfo)
  | [] => []
  | p :: rest =>
    if p.1 == key then (p.1, { p.2 with time := p.2.time + time }) :: rest
    else p :: mergeUpdateFirst key time rest

/-- One step of the merge loop of _accumulate_task_time (lines 319-332):
key by (normalized action, description); accumulate time on collision,
otherwise store a copy carrying its normalized action. -/
def mergeInsertChild (acc : List ((String × String) × ChildInfo)) (c : ChildInfo) :
    List ((String × String) × ChildInfo) :=
  if acc.any (fun p => p.1 == childKey c) then mergeUpdateFirst (childKey c) c.time acc
  else acc ++ [(childKey c,
    { c with normalized_action := some (normalize_action_for_merge c.action) })]

/-- Stable insertion into a descending-sorted list: the element goes in
front of the first entry whose key does not exceed its own, so entries
with a strictly greater key stay in front and, among equal keys, earlier
list elements stay in front (the stability of Python list.sort). -/
def insertDescBy {α : Type} (keyLe : α → α → Bool) (a : α) : List α → List α
  | [] => [a]
  | b :: rest => if keyLe b a then a :: b :: rest else b :: insertDescBy keyLe a rest

/-- Python list.sort(key=..., reverse=True): the stable descending sort
(stable sorts by the same key agree on every input, so insertion sort is
the same function as the sort of CPython).  keyLe b a reads: the key of b
does not exceed the key of a. -/
def sortStableDescBy {α : Type} (keyLe : α → α → Bool) : List α → List α
  | [] => []
  | a :: rest => insertDescBy keyLe a (sortStableDescBy keyLe rest)

/-- Merge children with the same (normalized action, description), then
sort by time descending (list.sort(key=time, reverse=True)). -/
def merge_children (cs : List ChildInfo) : List ChildInfo :=
  sortStableDescBy (fun a b => decide (a.time ≤ b.time))
    ((cs.foldl mergeInsertChild []).map Prod.snd)

/-! ## tasks_parser.py: hierarchical aggregation -/

/-- The value overwrite of dict insertion with an existing key. -/
def updateFirstTask (t : TaskInfo) : List TaskInfo → List TaskInfo
  | [] => []
  | u :: rest => if u.task_id == t.task_id then t :: rest else u :: updateFirstTask t rest

/-- One step of building the task_id -> TaskInfo dict: overwrite in place
when the key exists, append otherwise. -/
def insertTask (m : List TaskInfo) (t : TaskInfo) : List TaskInfo :=
  if m.any (fun u => u.task_id == t.task_id) then updateFirstTask t m else m ++ [t]

/-- tasks_parser.py line 237: task_map as a dict in insertion order. -/
def buildTaskMap (tasks : List TaskInfo) : List TaskInfo :=
  tasks.foldl insertTask []

/-- tasks_parser.py line 242: a task is a root when its parent id is empty
or absent from the task map. -/
def is_root_task (tm : List TaskInfo) (t : TaskInfo) : Bool :=
  t.parent_task_id == "" || !(tm.any (fun u => u.task_id == t.parent_task_id))

/-- tasks_parser.py _accumulate_task_time with fuel: recursively accumulate
time and count from a task and all its descendants (every task of the map
whose parent id equals this task's id), collect the description-bearing
tasks as children info, merge and sort them.  Fuel exhaustion (none)
models non-termination of the unguarded Python recursion. -/
def accumulate_task_time : ℕ → List TaskInfo → TaskInfo → Option (ℤ × ℕ × List ChildInfo)
  | 0, _, _ => none
  | fuel + 1, tm, t =>
    let selfInfo : List ChildInfo :=
      if t.description = "" then []
      else [⟨t.running_time_nanos, t.description, t.action, none⟩]
    let folded := (tm.filter (fun c => c.parent_task_id == t.task_id)).foldl
      (fun acc c =>
        match acc with
        | none => none
        | some r =>
          match accumulate_task_time fuel tm c with
          | none => none
          | some s => some (r.1 + s.1, r.2.1 + s.2.1, r.2.2 ++ s.2.2))
      (some (t.running_time_nanos, 1, selfInfo))
    folded.map (fun r => (r.1, r.2.1, merge_children r.2.2))

/-- Add an accumulated (time, count, children) into the action map of one
node, matching the dict updates of lines 267-277. -/
def upsertAction (acts : List (String × ActionEntry)) (action : String)
    (T : ℤ) (C : ℕ) (L : List ChildInfo) : List (String × ActionEntry) :=
  if acts.any (fun p => p.1 == action) then
    updateFirstKey action
      (fun e => { e with total_time := e.total_time + T,
                         task_count := e.task_count + C,
                         children := e.children ++ L }) acts
  else acts ++ [(action, ⟨T, C, "", L⟩)]

/-- Add an accumulated root entry into the nested node -> action map. -/
def upsertNodeEntry (res : List (String × List (String × ActionEntry)))
    (nid action : String) (T : ℤ) (C : ℕ) (L : List ChildInfo) :
    List (String × List (String × ActionEntry)) :=
  if res.any (fun p => p.1 == nid) then
    updateFirstKey nid (fun acts => upsertAction acts action T C L) res
  else res ++ [(nid, upsertAction [] action T C L)]

/-- tasks_parser.py _aggregate_by_hierarchy with fuel: build the task map,
identify roots, and fold every root (in first-occurrence order; Python
iterates a set here, and the claims below are insensitive to the order)
into the nested node -> action result map. -/
def aggregate_by_hierarchy (fuel : ℕ) (tasks : List TaskInfo) :
    Option (List (String × List (String × ActionEntry))) :=
  let tm := buildTaskMap tasks
  let rootIds := ((tasks.filter (fun t => is_root_task tm t)).map (fun t => t.task_id)).dedup
  rootIds.foldl
    (fun acc rid =>
      match acc with
      | none => none
      | some res =>
        match tm.find? (fun u => u.task_id == rid) with
        | none => some res
        | some r =>
          match accumulate_task_time fuel tm r with
          | none => none
          | some s => some (upsertNodeEntry res r.node_id r.action s.1 s.2.1 s.2.2))
    (some [])

/-! ## parser.py data containers and tasks_parser.py conversion -/

/-- parser.py ThreadInfo. -/
structure ThreadInfo where
  node_id : String
  node_name : String
  node_ip : String
  timestamp : String
  cpu_percent : ℚ
  cpu_time_ms : ℚ
  interval_ms : ℚ
  thread_name : String
  snapshots : String
  samples_count : ℕ
  stack_frames : List String
deriving DecidableEq

/-- parser.py ParsedData. -/
structure ParsedData where
  threads : List ThreadInfo
  total_cpu_time : ℚ
  node_count : ℕ
  interval_ms : ℚ
deriving DecidableEq

/-- Two-digit zero padding for fixed-point formatting (nonnegative input). -/
def pad2 (n : ℤ) : String :=
  if n < 10 then "0" ++ toString n else toString n

/-- Python fixed-point formatting with two decimals of a nonnegative exact
value (round-half-even, as the format spec rounds). -/
def fmtFixed2 (q : ℚ) : String :=
  let n := roundHalfEven (q * 100)
  toString (n / 100) ++ "." ++ pad2 (n % 100)

/-- tasks_parser.py _format_time_nanos. -/
def format_time_nanos (nanos : ℤ) : String :=
  if 1000000000 ≤ nanos then fmtFixed2 ((nanos : ℚ) / 1000000000) ++ "s"
  else if 1000000 ≤ nanos then fmtFixed2 ((nanos : ℚ) / 1000000) ++ "ms"
  else if 1000 ≤ nanos then fmtFixed2 ((nanos : ℚ) / 1000) ++ "μs"
  else toString nanos ++ "ns"

/-- The description string built by _to_thread_info_list for one entry:
the total line, then a numbered line per merged child (the .0f formatting
of the integral nanos value is the integer itself). -/
def build_description (e : ActionEntry) : String :=
  let base := ["Total: " ++ format_time_nanos e.total_time]
  let parts :=
    if e.children.isEmpty then base
    else base ++ [""] ++ (e.children.enum.map (fun p =>
      let istr := toString (p.1 + 1)
      let timeStr := format_time_nanos p.2.time
      let na := normalize_action_for_merge p.2.action
      if p.2.description = "" then istr ++ ". " ++ timeStr ++ ": " ++ na
      else istr ++ ". " ++ timeStr ++ ": " ++ na ++ " - " ++ p.2.description))
  String.intercalate "\n" parts

/-- tasks_parser.py _to_thread_info_list: one ThreadInfo per (node,
action) entry, action as thread name, nanos converted to ms and rounded to
six decimals. -/
def to_thread_info_list (agg : List (String × List (String × ActionEntry))) : List ThreadInfo :=
  (agg.map (fun p =>
    p.2.map (fun q =>
      { node_id := p.1, node_name := p.1, node_ip := "", timestamp := "",
        cpu_percent := 0, cpu_time_ms := pyRound6 ((q.2.total_time : ℚ) / 1000000),
        interval_ms := 0, thread_name := q.1, snapshots := "",
        samples_count := q.2.task_count,
        stack_frames := [build_description q.2] : ThreadInfo }))).flatten

/-- tasks_parser.py parse_text from the point where the task list has been
extracted from JSON (the JSON scanning itself is out of the algorithmic
core): aggregate, convert, and compute the totals of lines 77-95. -/
def parse_text_tasks (fuel : ℕ) (all_tasks : List TaskInfo) : Option ParsedData :=
  (aggregate_by_hierarchy fuel all_tasks).map (fun agg =>
    { threads := to_thread_info_list agg,
      total_cpu_time := (((all_tasks.map (fun t => t.running_time_nanos)).sum : ℤ) : ℚ) / 1000000,
      node_count := ((all_tasks.map (fun t => t.node_id)).dedup).length,
      interval_ms := 0 })

/-! ## flamegraph.py -/

/-- flamegraph.py FrameNode fields (the parent back-reference, used only
when rendering SVG titles, is dropped; children live in the tree node). -/
structure FrameInfo where
  name : String
  depth : ℕ
  x : ℚ := 0
  y : ℚ := 0
  width : ℚ := 0
  value : ℚ := 0
  samples_count : ℕ := 0
  percentage : ℚ := 0
  cpu_percent : ℚ := 0
  color : String := "rgb(255,255,255)"
  start_time : ℚ := 0
  end_time : ℚ := 0
deriving DecidableEq

/-- The frame tree. -/
inductive FrameNode where
  | node (info : FrameInfo) (children : List FrameNode)

def FrameNode.info : FrameNode → FrameInfo
  | .node i _ => i

def FrameNode.children : FrameNode → List FrameNode
  | .node _ cs => cs

def FrameNode.name (t : FrameNode) : String := t.info.name

def FrameNode.depth (t : FrameNode) : ℕ := t.info.depth

def FrameNode.x (t : FrameNode) : ℚ := t.info.x

def FrameNode.width (t : FrameNode) : ℚ := t.info.width

def FrameNode.value (t : FrameNode) : ℚ := t.info.value

def FrameNode.percentage (t : FrameNode) : ℚ := t.info.percentage

/-- The minimum-width threshold configuration: the numeric value parsed
from the minwidth string, in pixel mode or (with a percent suffix) in
percent mode. -/
inductive MinwidthSpec where
  | pixels (v : ℚ)
  | percent (v : ℚ)
deriving DecidableEq

/-- The FlameGraphGenerator configuration fields the core uses. -/
structure GenCfg where
  width : ℚ := 1920
  height : ℚ := 18
  fontsize : ℚ := 14
  xpad : ℚ := 10
  minwidth : MinwidthSpec := .pixels (1/10)
  sort_by_cpu : Bool := false
deriving DecidableEq

/-- flamegraph.py line 67: ypad1 = fontsize * 3. -/
def GenCfg.ypad1 (cfg : GenCfg) : ℚ := cfg.fontsize * 3

/-- flamegraph.py line 69: framepad = 1. -/
def framepad : ℚ := 1

/-- The per-node value of the dict built by _merge_threads. -/
structure MergedNode where
  threads : List (String × ℚ × ℚ × ℕ)
  node_cpu : ℚ
  node_samples : ℕ
  node_percent : ℚ
deriving DecidableEq

/-- One step of the grouping loop of _merge_threads (lines 108-122):
group by node id and thread name, accumulating cpu time and samples. -/
def upsertThreadGroup (g : List (String × List (String × ℚ × ℕ))) (th : ThreadInfo) :
    List (String × List (String × ℚ × ℕ)) :=
  let addThread : List (String × ℚ × ℕ) → List (String × ℚ × ℕ) := fun td =>
    if td.any (fun e => e.1 == th.thread_name) then
      updateFirstKey th.thread_name
        (fun v => (v.1 + th.cpu_time_ms, v.2 + th.samples_count)) td
    else td ++ [(th.thread_name, th.cpu_time_ms, th.samples_count)]
  if g.any (fun e => e.1 == th.node_id) then updateFirstKey th.node_id addThread g
  else g ++ [(th.node_id, addThread [])]

/-- flamegraph.py _merge_threads: group threads by node and thread name,
then build per node the thread list (with the per-node cpu percentage,
optionally sorted by cpu time descending), the node totals, and the
constant 100 node percentage. -/
def merge_threads (sort_by_cpu : Bool) (threads : List ThreadInfo) :
    List (String × MergedNode) :=
  let groups := threads.foldl upsertThreadGroup []
  groups.map (fun p =>
    let td := p.2
    let node_total : ℚ := (td.map (fun e => e.2.1)).sum
    let node_samples : ℕ := (td.map (fun e => e.2.2)).sum
    let tl := td.map (fun e =>
      (e.1, e.2.1, if 0 < node_total then e.2.1 / node_total * 100 else 0, e.2.2))
    let tl := if sort_by_cpu then sortStableDescBy (fun a b => decide (a.2.1 ≤ b.2.1)) tl else tl
    (p.1, { threads := tl, node_cpu := node_total, node_samples := node_samples,
            node_percent := 100 }))

/-- The depth-2 thread frame of _build_tree (lines 181-186) for one merged
(thread_name, cpu_time, cpu_percent, samples_count) tuple. -/
def thread_frame (t : String × ℚ × ℚ × ℕ) : FrameNode :=
  .node { name := t.1, depth := 2, value := t.2.1,
          cpu_percent := t.2.2.1, samples_count := t.2.2.2 } []

/-- The depth-1 node frame of _build_tree (lines 169-186) for one merged
node entry, with its thread frames as children. -/
def owner_frame (p : String × MergedNode) : FrameNode :=
  .node { name := p.1, depth := 1, value := p.2.node_cpu,
          cpu_percent := p.2.node_percent, percentage := p.2.node_percent,
          samples_count := p.2.node_samples }
    (p.2.threads.map thread_frame)

/-- flamegraph.py _build_tree: the synthetic "all" root of value
total_time, one depth-1 frame per node carrying the node totals, one
depth-2 frame per thread. -/
def build_tree (merged : List (String × MergedNode)) (total_time : ℚ) : FrameNode :=
  .node { name := "all", depth := 0, value := total_time } (merged.map owner_frame)

mutual

/-- The calc_percent closure of _calculate_layout (lines 264-274): depth-1
frames always get 100, every other frame gets value over the parent value
when that is positive and 0 otherwise. -/
def calc_percent (pv : ℚ) : FrameNode → FrameNode
  | .node i cs =>
    let pct : ℚ := if i.depth = 1 then 100 else if 0 < pv then i.value / pv * 100 else 0
    .node { i with percentage := pct } (calc_percent_list i.value cs)

def calc_percent_list (pv : ℚ) : List FrameNode → List FrameNode
  | [] => []
  | c :: cs => calc_percent pv c :: calc_percent_list pv cs

end

/-- The owner placement loop of _calculate_layout (lines 280-292): place
depth-1 frames left to right from the running x, width proportional to the
share of total when total is positive and 0 otherwise. -/
def layout_owners (cfg : GenCfg) (total_time tw : ℚ) : ℚ → List FrameNode → List FrameNode
  | _, [] => []
  | cx, .node i cs :: rest =>
    let w : ℚ := if 0 < total_time then i.value / total_time * tw else 0
    .node { i with width := w, x := cx,
                   y := cfg.ypad1 + (cfg.height + framepad),
                   end_time := cx + w } cs
      :: layout_owners cfg total_time tw (cx + w) rest

/-- The thread placement loop of _calculate_layout (lines 297-307): place
the children of one owner left to right from the owner's x, width
proportional to the share of the owner's value when that is positive. -/
def layout_threads_go (node_value node_width ypad1 : ℚ) : ℚ → List FrameNode → List FrameNode
  | _, [] => []
  | tx, .node i cs :: rest =>
    let w : ℚ := if 0 < node_value then i.value / node_value * node_width else 0
    .node { i with x := tx, width := w, y := ypad1 } cs
      :: layout_threads_go node_value node_width ypad1 (tx + w) rest

/-- The second pass of _calculate_layout over the owners (lines 295-309). -/
def layout_threads (cfg : GenCfg) : List FrameNode → List FrameNode :=
  List.map (fun n =>
    match n with
    | .node i cs => .node i (layout_threads_go i.value i.width cfg.ypad1 i.x cs))

/-- flamegraph.py _calculate_layout: percentages, then owner placement
over drawable width, then thread placement inside each owner.  (It also
updates the generator's current_y rendering cursor, which no claim
touches.) -/
def calculate_layout (cfg : GenCfg) (root : FrameNode) (total_time : ℚ) : FrameNode :=
  match calc_percent total_time root with
  | .node i cs =>
    let tw := cfg.width - 2 * cfg.xpad
    .node i (layout_threads cfg (layout_owners cfg total_time tw cfg.xpad cs))

mutual

/-- flamegraph.py _collect_frames: preorder walk appending every node
whose name differs from the literal "all". -/
def collect_frames : FrameNode → List FrameNode
  | .node i cs => (if i.name == "all" then [] else [.node i cs]) ++ collect_frames_list cs

def collect_frames_list : List FrameNode → List FrameNode
  | [] => []
  | c :: cs => collect_frames c ++ collect_frames_list cs

end

mutual

/-- The plain preorder node list of a frame tree (for stating what
_collect_frames keeps). -/
def preorder_frames : FrameNode → List FrameNode
  | .node i cs => .node i cs :: preorder_frames_list cs

def preorder_frames_list : List FrameNode → List FrameNode
  | [] => []
  | c :: cs => preorder_frames c ++ preorder_frames_list cs

end

/-- The numeric minimum width of _filter_by_minwidth (lines 380-384). -/
def min_width_value (cfg : GenCfg) : ℚ :=
  match cfg.minwidth with
  | .percent p => (cfg.width - 2 * cfg.xpad) * p / 100
  | .pixels v => v

/-- flamegraph.py _filter_by_minwidth: keep exactly the frames whose width
is at least the threshold. -/
def filter_by_minwidth (cfg : GenCfg) (frames : List FrameNode) : List FrameNode :=
  frames.filter (fun f => decide (min_width_value cfg ≤ f.width))

/-- flamegraph.py generate up to the frame list handed to the SVG renderer
(_assign_colors only writes the color field and is omitted; _render_svg is
the excluded rendering sink). -/
def generate_frames (cfg : GenCfg) (data : ParsedData) : List FrameNode :=
  let merged := merge_threads cfg.sort_by_cpu data.threads
  let root := build_tree merged data.total_cpu_time
  let root := calculate_layout cfg root data.total_cpu_time
  filter_by_minwidth cfg (collect_frames root)

/-! ## Proof-layer notions for the task graph -/

/-- The parent of a task inside the task map, by id lookup (the inverse of
the direct-children scan of _accumulate_task_time). -/
def parent_of (tm : List TaskInfo) (t : TaskInfo) : Option TaskInfo :=
  tm.find? (fun u => u.task_id == t.parent_task_id)

/-- Fuel-bounded ancestor test: does the parent chain from u reach (a task
with the id of) t? -/
def ancB (tm : List TaskInfo) : ℕ → TaskInfo → TaskInfo → Bool
  | 0, _, _ => false
  | fuel + 1, u, t =>
    u.task_id == t.task_id ||
      (match parent_of tm u with
       | some p => ancB tm fuel p t
       | none => false)

/-- Fuel-bounded rootedness test: does the parent chain from t reach a
task with no parent in the map? -/
def rootedB (tm : List TaskInfo) : ℕ → TaskInfo → Bool
  | 0, _ => false
  | fuel + 1, t =>
    match parent_of tm t with
    | none => true
    | some p => rootedB tm fuel p

/-- The parent chain from t reaches a parentless task in exactly d steps. -/
inductive RootedAt (tm : List TaskInfo) : ℕ → TaskInfo → Prop where
  | base {t} : parent_of tm t = none → RootedAt tm 0 t
  | step {t p d} : parent_of tm t = some p → RootedAt tm d p → RootedAt tm (d + 1) t

/-- t lies on the parent chain from u (reflexive-transitive closure of the
parent step). -/
inductive UpChain (tm : List TaskInfo) : TaskInfo → TaskInfo → Prop where
  | refl (t : TaskInfo) : UpChain tm t t
  | step {u p t} : parent_of tm u = some p → UpChain tm p t → UpChain tm u t

/-- The fuel-bounded parent chain from a task, as a list. -/
def chainF (tm : List TaskInfo) : ℕ → TaskInfo → List TaskInfo
  | 0, t => [t]
  | fuel + 1, t =>
    t :: (match parent_of tm t with
          | none => []
          | some p => chainF tm fuel p)

/-- The total of the task_count fields over the whole nested result map of
_aggregate_by_hierarchy. -/
def sum_task_counts (res : List (String × List (String × ActionEntry))) : ℕ :=
  (res.map (fun p => (p.2.map (fun q => q.2.task_count)).sum)).sum

/-- The aggregation diverges on this input: no amount of fuel completes it
(this is how non-termination of the Python recursion is expressed in the
fuel model). -/
def agg_diverges (tasks : List TaskInfo) : Prop :=
  ∀ fuel, aggregate_by_hierarchy fuel tasks = none

/-- Frames are laid out gaplessly left to right from x0: the first frame
starts at x0 and each next frame starts where the previous one ends. -/
def placed_from (x0 : ℚ) : List FrameNode → Prop
  | [] => True
  | f :: rest => f.x = x0 ∧ placed_from (x0 + f.width) rest

/-! ## Concrete inputs used by counterexamples and witnesses -/

/-- Two tasks whose parent references form a two-cycle; neither is a root. -/
def cycleTasks : List TaskInfo :=
  [⟨"n1", "n1", "a1", "", 1000000, "t1", "t2"⟩,
   ⟨"n1", "n1", "a2", "", 1000000, "t2", "t1"⟩]

/-- A self-referential task through the empty id: its parent id is empty
(so it is classified as a root) while its own id is the empty string (so
it is its own direct child in the children scan). -/
def selfLoopTask : TaskInfo :=
  ⟨"n1", "n1", "a1", "d1", 5, "", ""⟩

/-- The batch holding just the self-referential empty-id task. -/
def emptyIdTask : List TaskInfo := [selfLoopTask]

/-- A single root task with an empty description. -/
def emptyDescTask : List TaskInfo :=
  [⟨"n1", "n1", "a1", "", 5, "t1", ""⟩]

/-- The three-task scenario of claim C3: root R (cost 5), child C (cost
10), grandchild G (cost 2), with distinct actions and non-empty
descriptions. -/
def scenarioTasks : List TaskInfo :=
  [⟨"n1", "n1", "actR", "dR", 5, "tR", ""⟩,
   ⟨"n1", "n1", "actC", "dC", 10, "tC", "tR"⟩,
   ⟨"n1", "n1", "actG", "dG", 2, "tG", "tC"⟩]

/-- A single zero-cost thread record. -/
def zeroThread : ThreadInfo :=
  { node_id := "N1", node_name := "N1", node_ip := "", timestamp := "",
    cpu_percent := 0, cpu_time_ms := 0, interval_ms := 0, thread_name := "T",
    snapshots := "", samples_count := 1, stack_frames := [] }

/-- A thread record under a node whose id is the literal "all". -/
def allNamedThread : ThreadInfo :=
  { node_id := "all", node_name := "all", node_ip := "", timestamp := "",
    cpu_percent := 0, cpu_time_ms := 5, interval_ms := 0, thread_name := "T",
    snapshots := "", samples_count := 1, stack_frames := [] }

/-- The per-node cpu-time sum stored in one thread-group entry. -/
def nodeGroupSum (td : List (String × ℚ × ℕ)) : ℚ :=
  (td.map (fun v => v.2.1)).sum

/-- The grand cpu-time sum stored in the whole thread-group map. -/
def groupsSum (g : List (String × List (String × ℚ × ℕ))) : ℚ :=
  (g.map (fun e => nodeGroupSum e.2)).sum

/-- The folding step of aggregate_by_hierarchy, named for reasoning about
the root-id fold. -/
def aggStep (fuel : ℕ) (tm : List TaskInfo)
    (acc : Option (List (String × List (String × ActionEntry)))) (rid : String) :
    Option (List (String × List (String × ActionEntry))) :=
  match acc with
  | none => none
  | some res =>
    match tm.find? (fun u => u.task_id == rid) with
    | none => some res
    | some r =>
      match accumulate_task_time fuel tm r with
      | none => none
      | some s => some (upsertNodeEntry res r.node_id r.action s.1 s.2.1 s.2.2)

/-- Total summarized cost carried by one merge key in a children list. -/
def keyTime (cs : List ChildInfo) (k : String × String) : ℤ :=
  ((cs.filter (fun c => childKey c == k)).map (fun c => c.time)).sum

/-- Total cost carried by one merge key in the keyed dict of the merge
loop. -/
def keyTimeA (acc : List ((String × String) × ChildInfo)) (k : String × String) : ℤ :=
  ((acc.filter (fun p => p.1 == k)).map (fun p => p.2.time)).sum

/-- The cost one record contributes to a merge key: its running time when
its annotation is non-empty and its key is that key, otherwise nothing. -/
def keyWeight (u : TaskInfo) (k : String × String) : ℤ :=
  if u.description ≠ "" ∧ taskKey u = k then u.running_time_nanos else 0

/-- Total cost of the non-empty-annotation records of the subtree of t
(the records whose parent chain passes through t) carrying one merge
key. -/
def subtreeKeyTime (tm : List TaskInfo) (t : TaskInfo) (k : String × String) : ℤ :=
  (tm.map (fun u => if ancB tm tm.length u t = true then keyWeight u k else 0)).sum

/-- Two records whose actions differ only in a bracket group and share a
description: their summaries collide on the merge key. -/
def collideTasks : List TaskInfo :=
  [⟨"n1", "n1", "act[s]", "dA", 7, "t1", ""⟩,
   ⟨"n1", "n1", "act[p]", "dA", 4, "t2", "t1"⟩]

/-! ## Shared helper lemmas -/

mutual

theorem collect_frames_eq (t : FrameNode) :
    collect_frames t = (preorder_frames t).filter (fun f => f.name != "all") := by
  match t with
  | .node i cs =>
    rw [collect_frames, preorder_frames, List.filter_cons, collect_frames_list_eq cs]
    by_cases h : (FrameNode.node i cs).name != "all"
    · simp only [h, if_pos]
      simp [FrameNode.name, FrameNode.info] at h
      simp [h, FrameNode.name, FrameNode.info]
    · simp only [h, if_neg]
      simp [FrameNode.name, FrameNode.info] at h
      simp [h, FrameNode.name, FrameNode.info]

theorem collect_frames_list_eq (cs : List FrameNode) :
    collect_frames_list cs = (preorder_frames_list cs).filter (fun f => f.name != "all") := by
  match cs with
  | [] => rw [collect_frames_list, preorder_frames_list]; rfl
  | c :: rest =>
    rw [collect_frames_list, preorder_frames_list, List.filter_append,
      collect_frames_eq c, collect_frames_list_eq rest]

end

theorem namehashLoop_bounds (l : List Char) : ∀ (v m w : ℚ) (md : ℕ), 2 ≤ md → 0 ≤ w → 0 ≤ v →
    0 ≤ (namehashLoop l v m w md).1 ∧
    (namehashLoop l v m w md).1 - v ≤ (namehashLoop l v m w md).2 - m := by
  induction l with
  | nil =>
    intro v m w md _ _ hv
    rw [namehashLoop]
    exact ⟨hv, by linarith⟩
  | cons c rest ih =>
    intro v m w md h2 hw hv
    have hmdpos : (0 : ℚ) < (md : ℚ) - 1 := by
      have : (2 : ℚ) ≤ (md : ℚ) := by exact_mod_cast h2
      linarith
    have hi : ((c.toNat % md : ℕ) : ℚ) ≤ (md : ℚ) - 1 := by
      have hlt : c.toNat % md < md := Nat.mod_lt _ (by omega)
      have : ((c.toNat % md : ℕ) : ℚ) + 1 ≤ (md : ℚ) := by exact_mod_cast hlt
      linarith
    have hi0 : (0 : ℚ) ≤ ((c.toNat % md : ℕ) : ℚ) := by positivity
    have ht0 : (0 : ℚ) ≤ ((c.toNat % md : ℕ) : ℚ) / ((md : ℚ) - 1) * w :=
      mul_nonneg (div_nonneg hi0 (le_of_lt hmdpos)) hw
    have htw : ((c.toNat % md : ℕ) : ℚ) / ((md : ℚ) - 1) * w ≤ w := by
      have hq : ((c.toNat % md : ℕ) : ℚ) / ((md : ℚ) - 1) ≤ 1 :=
        (div_le_one hmdpos).mpr hi
      calc ((c.toNat % md : ℕ) : ℚ) / ((md : ℚ) - 1) * w ≤ 1 * w :=
            mul_le_mul_of_nonneg_right hq hw
        _ = w := one_mul w
    rw [namehashLoop]
    by_cases hbr : 12 < md
    · simp only [hbr, if_pos]
      constructor
      · linarith
      · linarith
    · simp only [hbr, if_neg, ite_false]
      have := ih (v + ((c.toNat % md : ℕ) : ℚ) / ((md : ℚ) - 1) * w) (m + w)
        (w * (7/10)) (md + 1) (by omega) (by linarith) (by linarith)
      exact ⟨this.1, by linarith [this.2]⟩

theorem namehashCore_bounds (l : List Char) : 0 ≤ namehashCore l ∧ namehashCore l ≤ 1 := by
  have h := namehashLoop_bounds l 0 1 1 10 (by omega) (by norm_num) (by norm_num)
  rw [namehashCore]
  have h1 : 0 ≤ (namehashLoop l 0 1 1 10).1 := h.1
  have h2 : (namehashLoop l 0 1 1 10).1 ≤ (namehashLoop l 0 1 1 10).2 - 1 := by linarith [h.2]
  have hden : (0 : ℚ) < (namehashLoop l 0 1 1 10).2 := by linarith
  constructor
  · have : (namehashLoop l 0 1 1 10).1 / (namehashLoop l 0 1 1 10).2 ≤ 1 :=
      (div_le_one hden).mpr (by linarith)
    linarith
  · have : 0 ≤ (namehashLoop l 0 1 1 10).1 / (namehashLoop l 0 1 1 10).2 :=
      div_nonneg h1 (le_of_lt hden)
    linarith

/-! ## Claim C5 -/

/-- C5 (amended): for every model of the external PRNG (a string hash, a
seeding function and a draw function over any generator-state type), each
of the three seeded draws taken by get_color equals the first draw of the
generator seeded from the label's hash — independent of the incoming
generator state, hence reproducible per label — so the three successive
draws are all EQUAL to one another, not three distinct values. -/
theorem c5_draws_reproducible_and_equal {σ : Type} (strHash : String → ℤ) (seedF : ℤ → σ)
    (randF : σ → ℚ × σ) (name : String) (g g' : σ) :
    (get_color_draws strHash seedF randF name g).1.1
        = (randF (seedF (sum_namehash strHash name))).1 ∧
    (get_color_draws strHash seedF randF name g).1.2.1
        = (get_color_draws strHash seedF randF name g).1.1 ∧
    (get_color_draws strHash seedF randF name g).1.2.2
        = (get_color_draws strHash seedF randF name g).1.1 ∧
    (get_color_draws strHash seedF randF name g).1
        = (get_color_draws strHash seedF randF name g').1 :=
  ⟨rfl, rfl, rfl, rfl⟩

/-- C5 counterexample: at a concrete label and a concrete instance of the
PRNG model, the three draws taken by get_color are equal, refuting the
claim that the three successive draws for one label are three distinct
values. -/
theorem c5_counterexample :
    (get_color_draws (fun s => (s.length : ℤ)) Int.toNat
        (fun s => ((s : ℚ) / 4294967296, s + 1)) "x" 0).1.1
      = (get_color_draws (fun s => (s.length : ℤ)) Int.toNat
        (fun s => ((s : ℚ) / 4294967296, s + 1)) "x" 0).1.2.1 ∧
    (get_color_draws (fun s => (s.length : ℤ)) Int.toNat
        (fun s => ((s : ℚ) / 4294967296, s + 1)) "x" 0).1.2.1
      = (get_color_draws (fun s => (s.length : ℤ)) Int.toNat
        (fun s => ((s : ℚ) / 4294967296, s + 1)) "x" 0).1.2.2 :=
  ⟨rfl, rfl⟩

/-! ## Claim C7 -/

/-- C7: minimum-width filtering returns the sublist of exactly those input
frames whose width is not strictly below the threshold (width < threshold
drops, in pixel mode with the parsed pixel value and in percent mode with
(canvas_width - 2*pad) * pct / 100), preserving relative order and leaving
retained frames unchanged (they are the same list elements). -/
theorem c7_filter_minwidth (cfg : GenCfg) (frames : List FrameNode) :
    (filter_by_minwidth cfg frames).Sublist frames ∧
    (∀ f, f ∈ filter_by_minwidth cfg frames ↔
      f ∈ frames ∧ ¬ f.width < min_width_value cfg) ∧
    (∀ v, cfg.minwidth = MinwidthSpec.pixels v → min_width_value cfg = v) ∧
    (∀ p, cfg.minwidth = MinwidthSpec.percent p →
      min_width_value cfg = (cfg.width - 2 * cfg.xpad) * p / 100) := by
  refine ⟨List.filter_sublist _, ?_, ?_, ?_⟩
  · intro f
    rw [filter_by_minwidth, List.mem_filter]
    simp [not_lt]
  · intro v h
    simp [min_width_value, h]
  · intro p h
    simp [min_width_value, h]

/-- C7 witness: the theorem applied at the default configuration (pixel
minwidth 0.1) and the empty frame list, discharging the pixel-mode
hypothesis there. -/
theorem c7_witness :
    min_width_value {} = 1/10 ∧ (filter_by_minwidth {} []).Sublist [] :=
  ⟨(c7_filter_minwidth {} []).2.2.1 (1/10) rfl, (c7_filter_minwidth {} []).1⟩

/-! ## Claim C9 -/

/-- C9 (amended): namehash strips the label up to the final reachable
backtick and walks the remainder, accumulating (codepoint mod M)/(M-1)
scaled by a weight decaying by 0.70 per character into a running sum and a
running max-possible-sum, incrementing M by 1 each step; but M is NOT
capped at 12: the loop stops after processing the first character at which
M exceeds 12, so M reaches 13 on the fourth character and at most the
first four characters of the stripped label contribute.  The result
1 - sum/max lies in [0, 1], and for stripped labels of at most three
characters the walk agrees with the capped-at-12 description of the
claim. -/
theorem c9_namehash_amended :
    (∀ name : String, 0 ≤ namehash name ∧ namehash name ≤ 1) ∧
    (∀ name : String, (subTicks name.data).length ≤ 3 →
      namehash name = namehash_claimed name) ∧
    (∀ (c1 c2 c3 c4 : Char) (rest rest' : List Char),
      namehashCore (c1 :: c2 :: c3 :: c4 :: rest)
        = namehashCore (c1 :: c2 :: c3 :: c4 :: rest')) := by
  refine ⟨?_, ?_, ?_⟩
  · intro name
    exact namehashCore_bounds (subTicks name.data)
  · intro name h
    rw [namehash, namehash_claimed, namehashCore]
    generalize subTicks name.data = l at h ⊢
    match l with
    | [] => norm_num [namehashLoop, namehashClaimedLoop]
    | [a] => norm_num [namehashLoop, namehashClaimedLoop]
    | [a, b] => norm_num [namehashLoop, namehashClaimedLoop]
    | [a, b, c] => norm_num [namehashLoop, namehashClaimedLoop]
    | a :: b :: c :: d :: rest => simp at h
  · intro c1 c2 c3 c4 rest rest'
    rw [namehashCore, namehashCore]
    norm_num [namehashLoop]

/-- C9 counterexample: on the concrete label "aaaaa" the source namehash
differs from the function described by the claim (M capped at 12, whole
label walked): the code processes the fourth character with modulus 13 and
then stops, ignoring the fifth character. -/
theorem c9_counterexample : namehash "aaaaa" ≠ namehash_claimed "aaaaa" := by
  have h : subTicks "aaaaa".data = ['a', 'a', 'a', 'a', 'a'] := rfl
  rw [namehash, namehash_claimed, h]
  simp only [namehashCore, namehashLoop, namehashClaimedLoop,
    show ('a').toNat = 97 from rfl]
  norm_num

/-- C9 witness: the amended theorem applied at the three-character label
"abc", discharging the length hypothesis there. -/
theorem c9_witness : namehash "abc" = namehash_claimed "abc" ∧ 0 ≤ namehash "abc" :=
  ⟨c9_namehash_amended.2.1 "abc" (by decide), (c9_namehash_amended.1 "abc").1⟩

/-! ## Claim C10 -/

/-- C10: the frame list collected by generate excludes frames by comparing
the name with the literal string "all", not by identity with the synthetic
root: collect_frames of any tree is exactly its preorder node list with
every node named "all" filtered out; concretely, for a batch whose owner
node id is the literal "all", the owner frame is omitted from the emitted
list while its thread child is still visited and emitted. -/
theorem c10_collect_excludes_by_name :
    (∀ t : FrameNode, collect_frames t
        = (preorder_frames t).filter (fun f => f.name != "all")) ∧
    (collect_frames (build_tree (merge_threads false [allNamedThread]) 5)).map
        FrameNode.name = ["T"] ∧
    (preorder_frames (build_tree (merge_threads false [allNamedThread]) 5)).map
        FrameNode.name = ["all", "all", "T"] :=
  ⟨collect_frames_eq, by decide, by decide⟩

/-! ## Sorting helper lemmas -/

theorem insertDescBy_perm {α : Type} (keyLe : α → α → Bool) (a : α) (l : List α) :
    (insertDescBy keyLe a l).Perm (a :: l) := by
  induction l with
  | nil => rfl
  | cons b rest ih =>
    rw [insertDescBy]
    by_cases h : keyLe b a = true
    · simp [h]
    · simp only [Bool.not_eq_true] at h
      simp only [h, Bool.false_eq_true, if_neg, ite_false]
      exact ((ih.cons b).trans (List.Perm.swap a b rest)).symm.symm

theorem sortStableDescBy_perm {α : Type} (keyLe : α → α → Bool) (l : List α) :
    (sortStableDescBy keyLe l).Perm l := by
  induction l with
  | nil => rfl
  | cons a rest ih =>
    rw [sortStableDescBy]
    exact (insertDescBy_perm keyLe a _).trans (ih.cons a)

theorem mem_insertDescBy {α : Type} {keyLe : α → α → Bool} {a y : α} {l : List α} :
    y ∈ insertDescBy keyLe a l ↔ y = a ∨ y ∈ l :=
  ⟨fun h => by
      have := (insertDescBy_perm keyLe a l).mem_iff.mp h
      simpa using this,
   fun h => (insertDescBy_perm keyLe a l).mem_iff.mpr (by simpa using h)⟩

theorem insertDescBy_pairwise {α : Type} (keyLe : α → α → Bool)
    (htot : ∀ x y, keyLe x y = false → keyLe y x = true)
    (htrans : ∀ x y z, keyLe x y = true → keyLe y z = true → keyLe x z = true)
    (a : α) (l : List α) (h : l.Pairwise (fun x y => keyLe y x = true)) :
    (insertDescBy keyLe a l).Pairwise (fun x y => keyLe y x = true) := by
  induction l with
  | nil => simp [insertDescBy]
  | cons b rest ih =>
    rw [insertDescBy]
    rcases List.pairwise_cons.mp h with ⟨hb, hrest⟩
    by_cases hba : keyLe b a = true
    · simp only [hba, if_pos]
      refine List.pairwise_cons.mpr ⟨?_, h⟩
      intro y hy
      rcases List.mem_cons.mp hy with rfl | hy
      · exact hba
      · exact htrans y b a (hb y hy) hba
    · simp only [Bool.not_eq_true] at hba
      simp only [hba, Bool.false_eq_true, if_neg, ite_false]
      refine List.pairwise_cons.mpr ⟨?_, ih hrest⟩
      intro y hy
      rcases mem_insertDescBy.mp hy with rfl | hy
      · exact htot b y hba
      · exact hb y hy

theorem sortStableDescBy_pairwise {α : Type} (keyLe : α → α → Bool)
    (htot : ∀ x y, keyLe x y = false → keyLe y x = true)
    (htrans : ∀ x y z, keyLe x y = true → keyLe y z = true → keyLe x z = true)
    (l : List α) :
    (sortStableDescBy keyLe l).Pairwise (fun x y => keyLe y x = true) := by
  induction l with
  | nil => simp [sortStableDescBy]
  | cons a rest ih =>
    rw [sortStableDescBy]
    exact insertDescBy_pairwise keyLe htot htrans a _ ih

theorem merge_children_sorted (cs : List ChildInfo) :
    (merge_children cs).Pairwise (fun a b => b.time ≤ a.time) := by
  rw [merge_children]
  have h := sortStableDescBy_pairwise (fun a b : ChildInfo => decide (a.time ≤ b.time))
    (fun x y hxy => by
      simp only [decide_eq_false_iff_not, not_le] at hxy
      simpa using le_of_lt hxy)
    (fun x y z hxy hyz => by
      simp only [decide_eq_true_eq] at hxy hyz ⊢
      exact le_trans hxy hyz)
    ((cs.foldl mergeInsertChild []).map Prod.snd)
  exact h.imp (fun hab => by simpa using hab)

/-! ## Merge-sum helper lemmas -/

theorem updateFirstKey_sum {κ β : Type} [BEq κ] (g : β → ℚ) (δ : ℚ) (k : κ) (f : β → β)
    (hf : ∀ v, g (f v) = g v + δ) :
    ∀ l : List (κ × β), l.any (fun p => p.1 == k) = true →
    ((updateFirstKey k f l).map (fun p => g p.2)).sum = (l.map (fun p => g p.2)).sum + δ := by
  intro l
  induction l with
  | nil => intro h; simp at h
  | cons p rest ih =>
    intro h
    rw [updateFirstKey]
    by_cases hp : p.1 == k
    · simp only [hp, if_pos, List.map_cons, List.sum_cons, hf]
      ring
    · simp only [hp, Bool.false_eq_true, if_neg, ite_false, List.map_cons, List.sum_cons]
      have hrest : rest.any (fun q => q.1 == k) = true := by
        rcases List.any_eq_true.mp h with ⟨q, hq, hqk⟩
        rcases List.mem_cons.mp hq with rfl | hq
        · exact absurd hqk (by simpa using hp)
        · exact List.any_eq_true.mpr ⟨q, hq, hqk⟩
      rw [ih hrest]
      ring

theorem upsertThreadGroup_sum (g : List (String × List (String × ℚ × ℕ)))
    (th : ThreadInfo) :
    groupsSum (upsertThreadGroup g th) = groupsSum g + th.cpu_time_ms := by
  rw [upsertThreadGroup]
  have haddThread : ∀ td : List (String × ℚ × ℕ),
      nodeGroupSum (if td.any (fun e => e.1 == th.thread_name) then
        updateFirstKey th.thread_name
          (fun v => (v.1 + th.cpu_time_ms, v.2 + th.samples_count)) td
      else td ++ [(th.thread_name, th.cpu_time_ms, th.samples_count)])
        = nodeGroupSum td + th.cpu_time_ms := by
    intro td
    by_cases h : td.any (fun e => e.1 == th.thread_name) = true
    · simp only [h, if_pos]
      exact updateFirstKey_sum (fun v => v.1) th.cpu_time_ms th.thread_name
        (fun v => (v.1 + th.cpu_time_ms, v.2 + th.samples_count))
        (fun v => rfl) td h
    · simp only [h, Bool.false_eq_true, if_neg, ite_false]
      rw [nodeGroupSum, nodeGroupSum, List.map_append, List.sum_append]
      simp
  by_cases hg : g.any (fun e => e.1 == th.node_id) = true
  · simp only [hg, if_pos]
    exact updateFirstKey_sum nodeGroupSum th.cpu_time_ms th.node_id
      (fun td => if td.any (fun e => e.1 == th.thread_name) then
        updateFirstKey th.thread_name
          (fun v => (v.1 + th.cpu_time_ms, v.2 + th.samples_count)) td
      else td ++ [(th.thread_name, th.cpu_time_ms, th.samples_count)])
      (fun td => haddThread td) g hg
  · simp only [hg, Bool.false_eq_true, if_neg, ite_false]
    rw [groupsSum, groupsSum, List.map_append, List.sum_append]
    simp only [List.map_cons, List.map_nil, List.sum_cons, List.sum_nil]
    rw [haddThread []]
    simp [nodeGroupSum]

theorem foldl_upsertThreadGroup_sum (threads : List ThreadInfo) :
    ∀ acc, groupsSum (threads.foldl upsertThreadGroup acc)
      = groupsSum acc + (threads.map ThreadInfo.cpu_time_ms).sum := by
  induction threads with
  | nil => intro acc; simp
  | cons th rest ih =>
    intro acc
    rw [List.foldl_cons, ih, upsertThreadGroup_sum]
    simp only [List.map_cons, List.sum_cons]
    ring


theorem merged_threads_shape (sb : Bool) (threads : List ThreadInfo)
    (p : String × MergedNode) (hp : p ∈ merge_threads sb threads) :
    ∃ td : List (String × ℚ × ℕ),
      p.2.node_cpu = (td.map (fun e => e.2.1)).sum ∧
      p.2.node_percent = 100 ∧
      (p.2.threads.map (fun t => t.2.1)).Perm (td.map (fun e => e.2.1)) ∧
      ∀ t ∈ p.2.threads, t.2.2.1 =
        (if 0 < p.2.node_cpu then t.2.1 / p.2.node_cpu * 100 else 0) := by
  rw [merge_threads] at hp
  rcases List.mem_map.mp hp with ⟨q, _, hq⟩
  refine ⟨q.2, ?_, ?_, ?_, ?_⟩
  · rw [← hq]
  · rw [← hq]
  · rw [← hq]
    simp only
    by_cases hsb : sb = true
    · simp only [hsb, if_pos]
      have hperm := sortStableDescBy_perm
        (fun a b : String × ℚ × ℚ × ℕ => decide (a.2.1 ≤ b.2.1))
        (q.2.map (fun e => (e.1, e.2.1,
          if 0 < (q.2.map (fun e => e.2.1)).sum then
            e.2.1 / (q.2.map (fun e => e.2.1)).sum * 100 else 0, e.2.2)))
      refine (hperm.map (fun t => t.2.1)).trans ?_
      rw [List.map_map]
      exact List.Perm.refl _
    · simp only [hsb, Bool.false_eq_true, if_neg, ite_false]
      rw [List.map_map]
      exact List.Perm.refl _
  · rw [← hq]
    simp only
    intro t ht
    by_cases hsb : sb = true
    · simp only [hsb, if_pos] at ht ⊢
      have := (sortStableDescBy_perm
        (fun a b : String × ℚ × ℚ × ℕ => decide (a.2.1 ≤ b.2.1)) _).mem_iff.mp ht
      rcases List.mem_map.mp this with ⟨e, _, he⟩
      rw [← he]
    · simp only [hsb, Bool.false_eq_true, if_neg, ite_false] at ht ⊢
      rcases List.mem_map.mp ht with ⟨e, _, he⟩
      rw [← he]

theorem merge_threads_total_sum (sb : Bool) (threads : List ThreadInfo) :
    ((merge_threads sb threads).map (fun p => p.2.node_cpu)).sum
      = (threads.map ThreadInfo.cpu_time_ms).sum := by
  have h2 : ((threads.foldl upsertThreadGroup []).map
      (fun q => nodeGroupSum q.2)).sum = (threads.map ThreadInfo.cpu_time_ms).sum := by
    simpa [groupsSum] using foldl_upsertThreadGroup_sum threads []
  rw [merge_threads, List.map_map]
  exact h2

/-! ## Claim C2 -/

/-- C2 (amended): in the frame tree built by generate, the sum of the
owner-level (depth-1) frame values equals the sum of the record costs of
the batch — which equals the synthetic "all" root's value exactly when the
supplied grand total is that sum (as it is for the hot-threads parser, but
NOT for the tasks parser on a batch whose parent references form a cycle,
where the cycle's records are dropped from every root entry) — and for
each owner frame the sum of its category-level children's values equals
that owner's value exactly. -/
theorem c2_tree_sums (sb : Bool) (threads : List ThreadInfo) (total : ℚ) :
    (build_tree (merge_threads sb threads) total).value = total ∧
    ((build_tree (merge_threads sb threads) total).children.map FrameNode.value).sum
      = (threads.map ThreadInfo.cpu_time_ms).sum ∧
    (∀ o ∈ (build_tree (merge_threads sb threads) total).children,
      o.value = (o.children.map FrameNode.value).sum) := by
  refine ⟨rfl, ?_, ?_⟩
  · simp only [build_tree, FrameNode.children, List.map_map]
    exact merge_threads_total_sum sb threads
  · intro o ho
    simp only [build_tree, FrameNode.children] at ho
    rcases List.mem_map.mp ho with ⟨p, hp, hpo⟩
    rcases merged_threads_shape sb threads p hp with ⟨td, hcpu, _, hperm, _⟩
    rw [← hpo]
    simp only [owner_frame, thread_frame, FrameNode.value, FrameNode.info,
      FrameNode.children, List.map_map]
    rw [hcpu]
    exact (hperm.sum_eq).symm

/-- C2 counterexample: for the two-task cycle batch, the tasks parser
yields a supplied grand total of 2 (the root frame's value) while the
owner-level frame values of the tree built by generate sum to 0 — the
cycle's records reach no root entry — so the sum of owner values does not
equal the supplied grand total. -/
theorem c2_counterexample :
    (parse_text_tasks 2 cycleTasks).map (fun d =>
      (((build_tree (merge_threads false d.threads) d.total_cpu_time).children.map
          FrameNode.value).sum,
        (build_tree (merge_threads false d.threads) d.total_cpu_time).value))
      = some (0, 2) ∧ (0 : ℚ) ≠ 2 := by
  have h1 : aggregate_by_hierarchy 2 cycleTasks = some [] := by decide
  constructor
  · rw [parse_text_tasks, h1]
    norm_num [Option.map, to_thread_info_list, merge_threads, build_tree, cycleTasks,
      FrameNode.children, FrameNode.value, FrameNode.info]
  · norm_num

/-- C2 witness: the per-owner part of the amended theorem applied to the
zero-cost single-thread batch's concrete owner frame. -/
theorem c2_witness :
    (FrameNode.node
      ⟨"N1", 1, 0, 0, 0, 0, 1, 100, 100, "rgb(255,255,255)", 0, 0⟩
      [FrameNode.node ⟨"T", 2, 0, 0, 0, 0, 1, 0, 0, "rgb(255,255,255)", 0, 0⟩ []]).value
    = (((FrameNode.node
      ⟨"N1", 1, 0, 0, 0, 0, 1, 100, 100, "rgb(255,255,255)", 0, 0⟩
      [FrameNode.node ⟨"T", 2, 0, 0, 0, 0, 1, 0, 0, "rgb(255,255,255)", 0, 0⟩ []]).children).map
        FrameNode.value).sum :=
  (c2_tree_sums false [zeroThread] 0).2.2 _
    (by norm_num [build_tree, merge_threads, upsertThreadGroup, zeroThread,
      owner_frame, thread_frame, FrameNode.children])

/-! ## Layout helper lemmas -/

@[simp] theorem FrameNode.info_node (i : FrameInfo) (cs : List FrameNode) :
    (FrameNode.node i cs).info = i := rfl

@[simp] theorem FrameNode.children_node (i : FrameInfo) (cs : List FrameNode) :
    (FrameNode.node i cs).children = cs := rfl

@[simp] theorem FrameNode.name_node (i : FrameInfo) (cs : List FrameNode) :
    (FrameNode.node i cs).name = i.name := rfl

@[simp] theorem FrameNode.depth_node (i : FrameInfo) (cs : List FrameNode) :
    (FrameNode.node i cs).depth = i.depth := rfl

@[simp] theorem FrameNode.x_node (i : FrameInfo) (cs : List FrameNode) :
    (FrameNode.node i cs).x = i.x := rfl

@[simp] theorem FrameNode.width_node (i : FrameInfo) (cs : List FrameNode) :
    (FrameNode.node i cs).width = i.width := rfl

@[simp] theorem FrameNode.value_node (i : FrameInfo) (cs : List FrameNode) :
    (FrameNode.node i cs).value = i.value := rfl

@[simp] theorem FrameNode.percentage_node (i : FrameInfo) (cs : List FrameNode) :
    (FrameNode.node i cs).percentage = i.percentage := rfl

theorem calc_percent_list_eq_map (pv : ℚ) (l : List FrameNode) :
    calc_percent_list pv l = l.map (calc_percent pv) := by
  induction l with
  | nil => rfl
  | cons c cs ih => rw [calc_percent_list, ih, List.map_cons]

theorem calc_percent_node (pv : ℚ) (i : FrameInfo) (cs : List FrameNode) :
    calc_percent pv (FrameNode.node i cs)
      = FrameNode.node
          { i with percentage :=
              if i.depth = 1 then 100 else if 0 < pv then i.value / pv * 100 else 0 }
          (calc_percent_list i.value cs) := by
  rw [calc_percent]

theorem calc_percent_owner (pv : ℚ) (p : String × MergedNode) :
    calc_percent pv (owner_frame p)
      = FrameNode.node
          { name := p.1, depth := 1, value := p.2.node_cpu,
            cpu_percent := p.2.node_percent, percentage := 100,
            samples_count := p.2.node_samples }
          (calc_percent_list p.2.node_cpu (p.2.threads.map thread_frame)) := by
  rw [owner_frame, calc_percent_node]
  norm_num

theorem calc_percent_thread (pv : ℚ) (t : String × ℚ × ℚ × ℕ) :
    calc_percent pv (thread_frame t)
      = FrameNode.node
          { name := t.1, depth := 2, value := t.2.1,
            cpu_percent := t.2.2.1, samples_count := t.2.2.2,
            percentage := if 0 < pv then t.2.1 / pv * 100 else 0 } [] := by
  rw [thread_frame, calc_percent_node]
  norm_num [calc_percent_list]

theorem layout_children_eq (cfg : GenCfg) (merged : List (String × MergedNode)) (total : ℚ) :
    (calculate_layout cfg (build_tree merged total) total).children
      = layout_threads cfg (layout_owners cfg total (cfg.width - 2 * cfg.xpad) cfg.xpad
          (calc_percent_list total ((build_tree merged total).children))) := by
  rw [build_tree, calculate_layout, calc_percent]
  rfl

theorem mem_layout_owners {cfg : GenCfg} {total tw : ℚ} :
    ∀ {l : List FrameNode} {x0 : ℚ} {o : FrameNode},
      o ∈ layout_owners cfg total tw x0 l →
      ∃ i cs x, FrameNode.node i cs ∈ l ∧
        o = FrameNode.node
          { i with width := if 0 < total then i.value / total * tw else 0,
                   x := x, y := cfg.ypad1 + (cfg.height + framepad),
                   end_time := x + (if 0 < total then i.value / total * tw else 0) } cs := by
  intro l
  induction l with
  | nil => intro x0 o ho; rw [layout_owners] at ho; exact absurd ho (List.not_mem_nil o)
  | cons hd tl ih =>
    intro x0 o ho
    match hd with
    | .node i cs =>
      rw [layout_owners] at ho
      rcases List.mem_cons.mp ho with rfl | ho
      · exact ⟨i, cs, x0, List.mem_cons_self _ _, rfl⟩
      · rcases ih ho with ⟨i', cs', x', hmem, heq⟩
        exact ⟨i', cs', x', List.mem_cons_of_mem _ hmem, heq⟩

theorem mem_layout_threads_go {V W y : ℚ} :
    ∀ {l : List FrameNode} {tx : ℚ} {c : FrameNode},
      c ∈ layout_threads_go V W y tx l →
      ∃ i cs x, FrameNode.node i cs ∈ l ∧
        c = FrameNode.node
          { i with x := x, width := if 0 < V then i.value / V * W else 0, y := y } cs := by
  intro l
  induction l with
  | nil => intro tx c hc; rw [layout_threads_go] at hc; exact absurd hc (List.not_mem_nil c)
  | cons hd tl ih =>
    intro tx c hc
    match hd with
    | .node i cs =>
      rw [layout_threads_go] at hc
      rcases List.mem_cons.mp hc with rfl | hc
      · exact ⟨i, cs, tx, List.mem_cons_self _ _, rfl⟩
      · rcases ih hc with ⟨i', cs', x', hmem, heq⟩
        exact ⟨i', cs', x', List.mem_cons_of_mem _ hmem, heq⟩

theorem layout_threads_go_values (V W y : ℚ) :
    ∀ (l : List FrameNode) (tx : ℚ),
      (layout_threads_go V W y tx l).map FrameNode.value = l.map FrameNode.value := by
  intro l
  induction l with
  | nil => intro tx; rfl
  | cons hd tl ih =>
    intro tx
    match hd with
    | .node i cs =>
      rw [layout_threads_go, List.map_cons, List.map_cons, ih]
      rfl

theorem mem_pipeline_owner {cfg : GenCfg} {sb : Bool} {threads : List ThreadInfo}
    {total : ℚ} {o : FrameNode}
    (ho : o ∈ (calculate_layout cfg (build_tree (merge_threads sb threads) total) total).children) :
    ∃ p ∈ merge_threads sb threads,
      o.depth = 1 ∧ o.name = p.1 ∧ o.value = p.2.node_cpu ∧ o.percentage = 100 ∧
      o.width = (if 0 < total then p.2.node_cpu / total * (cfg.width - 2 * cfg.xpad) else 0) ∧
      o.children.map FrameNode.value = p.2.threads.map (fun t => t.2.1) ∧
      ∀ c ∈ o.children, ∃ t ∈ p.2.threads,
        c.depth = 2 ∧ c.name = t.1 ∧ c.value = t.2.1 ∧
        c.percentage = (if 0 < p.2.node_cpu then t.2.1 / p.2.node_cpu * 100 else 0) ∧
        c.width = (if 0 < o.value then c.value / o.value * o.width else 0) ∧
        c.children = [] := by
  rw [layout_children_eq, layout_threads] at ho
  rcases List.mem_map.mp ho with ⟨o1, ho1, ho1o⟩
  rcases mem_layout_owners ho1 with ⟨i1, cs1, x1, hmem1, heq1⟩
  rw [calc_percent_list_eq_map] at hmem1
  simp only [build_tree, FrameNode.children_node, List.map_map] at hmem1
  rcases List.mem_map.mp hmem1 with ⟨p, hp, hpeq⟩
  simp only [Function.comp] at hpeq
  rw [calc_percent_owner] at hpeq
  injection hpeq with hinfo hchild
  refine ⟨p, hp, ?_⟩
  subst hinfo
  subst hchild
  subst heq1
  rw [← ho1o]
  simp only []
  constructor
  · simp
  constructor
  · simp
  constructor
  · simp
  constructor
  · simp
  constructor
  · simp
  constructor
  · rw [FrameNode.children_node, layout_threads_go_values, calc_percent_list_eq_map]
    simp only [List.map_map]
    refine List.map_congr_left ?_
    intro t _
    simp only [Function.comp, calc_percent_thread, FrameNode.value_node]
  · intro c hc
    rw [FrameNode.children_node] at hc
    rcases mem_layout_threads_go hc with ⟨i2, cs2, x2, hmem2, heq2⟩
    rw [calc_percent_list_eq_map, List.map_map] at hmem2
    rcases List.mem_map.mp hmem2 with ⟨t, ht, hteq⟩
    simp only [Function.comp] at hteq
    rw [calc_percent_thread] at hteq
    injection hteq with hinfo2 hchild2
    refine ⟨t, ht, ?_⟩
    subst hinfo2
    subst hchild2
    subst heq2
    refine ⟨by simp, by simp, by simp, by simp, ?_, by simp⟩
    simp

/-! ## Zero-cost invariants and collect decomposition -/

theorem updateFirstKey_mem {κ β : Type} [BEq κ] {k : κ} {f : β → β} :
    ∀ {l : List (κ × β)} {x}, x ∈ updateFirstKey k f l →
      x ∈ l ∨ ∃ y ∈ l, x = (y.1, f y.2) := by
  intro l
  induction l with
  | nil => intro x hx; rw [updateFirstKey] at hx; exact absurd hx (List.not_mem_nil x)
  | cons p rest ih =>
    intro x hx
    rw [updateFirstKey] at hx
    by_cases hp : p.1 == k
    · simp only [hp, if_pos] at hx
      rcases List.mem_cons.mp hx with rfl | hx
      · exact Or.inr ⟨p, List.mem_cons_self _ _, rfl⟩
      · exact Or.inl (List.mem_cons_of_mem _ hx)
    · simp only [hp, Bool.false_eq_true, if_neg, ite_false] at hx
      rcases List.mem_cons.mp hx with rfl | hx
      · exact Or.inl (List.mem_cons_self _ _)
      · rcases ih hx with h | ⟨y, hy, hxy⟩
        · exact Or.inl (List.mem_cons_of_mem _ h)
        · exact Or.inr ⟨y, List.mem_cons_of_mem _ hy, hxy⟩

theorem upsertThreadGroup_zero {g : List (String × List (String × ℚ × ℕ))}
    {th : ThreadInfo} (hth : th.cpu_time_ms = 0)
    (hg : ∀ e ∈ g, ∀ v ∈ e.2, v.2.1 = 0) :
    ∀ e ∈ upsertThreadGroup g th, ∀ v ∈ e.2, v.2.1 = 0 := by
  intro e he v hv
  rw [upsertThreadGroup] at he
  have haddThread : ∀ td : List (String × ℚ × ℕ), (∀ w ∈ td, w.2.1 = 0) →
      ∀ w ∈ (if td.any (fun e => e.1 == th.thread_name) then
          updateFirstKey th.thread_name
            (fun v => (v.1 + th.cpu_time_ms, v.2 + th.samples_count)) td
        else td ++ [(th.thread_name, th.cpu_time_ms, th.samples_count)]),
        w.2.1 = 0 := by
    intro td htd w hw
    by_cases h : td.any (fun e => e.1 == th.thread_name) = true
    · simp only [h, if_pos] at hw
      rcases updateFirstKey_mem hw with hmem | ⟨y, hy, hwy⟩
      · exact htd w hmem
      · rw [hwy]
        simp only
        rw [htd y hy, hth]
        norm_num
    · simp only [h, Bool.false_eq_true, if_neg, ite_false] at hw
      rcases List.mem_append.mp hw with hmem | hmem
      · exact htd w hmem
      · simp only [List.mem_singleton] at hmem
        rw [hmem]
        exact hth
  by_cases hhit : g.any (fun e => e.1 == th.node_id) = true
  · simp only [hhit, if_pos] at he
    rcases updateFirstKey_mem he with hmem | ⟨y, hy, hey⟩
    · exact hg e hmem v hv
    · rw [hey] at hv
      simp only at hv
      exact haddThread y.2 (hg y hy) v hv
  · simp only [hhit, Bool.false_eq_true, if_neg, ite_false] at he
    rcases List.mem_append.mp he with hmem | hmem
    · exact hg e hmem v hv
    · simp only [List.mem_singleton] at hmem
      rw [hmem] at hv
      simp only at hv
      exact haddThread [] (by intro w hw; exact absurd hw (List.not_mem_nil w)) v hv

theorem foldl_upsertThreadGroup_zero {threads : List ThreadInfo}
    (hz : ∀ th ∈ threads, th.cpu_time_ms = 0) :
    ∀ acc, (∀ e ∈ acc, ∀ v ∈ (e : String × List (String × ℚ × ℕ)).2, v.2.1 = 0) →
    ∀ e ∈ threads.foldl upsertThreadGroup acc, ∀ v ∈ e.2, v.2.1 = 0 := by
  induction threads with
  | nil => intro acc hacc; exact hacc
  | cons th rest ih =>
    intro acc hacc
    rw [List.foldl_cons]
    exact ih (fun t ht => hz t (List.mem_cons_of_mem _ ht)) _
      (upsertThreadGroup_zero (hz th (List.mem_cons_self _ _)) hacc)

theorem merged_zero {sb : Bool} {threads : List ThreadInfo}
    (hz : ∀ th ∈ threads, th.cpu_time_ms = 0) :
    ∀ p ∈ merge_threads sb threads, p.2.node_cpu = 0 ∧ ∀ t ∈ p.2.threads, t.2.1 = 0 := by
  intro p hp
  rw [merge_threads] at hp
  rcases List.mem_map.mp hp with ⟨q, hq, hqp⟩
  have hqz : ∀ v ∈ q.2, v.2.1 = (0 : ℚ) :=
    fun v hv => foldl_upsertThreadGroup_zero hz []
      (by intro e he; exact absurd he (List.not_mem_nil e)) q hq v hv
  have hcpu : (q.2.map (fun e => e.2.1)).sum = (0 : ℚ) := by
    apply List.sum_eq_zero
    intro x hx
    rcases List.mem_map.mp hx with ⟨v, hv, hvx⟩
    rw [← hvx]
    exact hqz v hv
  constructor
  · rw [← hqp]
    exact hcpu
  · rw [← hqp]
    simp only
    intro t ht
    by_cases hsb : sb = true
    · simp only [hsb, if_pos] at ht
      have := (sortStableDescBy_perm
        (fun a b : String × ℚ × ℚ × ℕ => decide (a.2.1 ≤ b.2.1)) _).mem_iff.mp ht
      rcases List.mem_map.mp this with ⟨e, he, het⟩
      rw [← het]
      exact hqz e he
    · simp only [hsb, Bool.false_eq_true, if_neg, ite_false] at ht
      rcases List.mem_map.mp ht with ⟨e, he, het⟩
      rw [← het]
      exact hqz e he

theorem mem_collect_frames_list {f : FrameNode} :
    ∀ {l : List FrameNode}, f ∈ collect_frames_list l ↔ ∃ c ∈ l, f ∈ collect_frames c := by
  intro l
  induction l with
  | nil =>
    rw [collect_frames_list]
    simp
  | cons c cs ih =>
    rw [collect_frames_list]
    rw [List.mem_append, ih]
    constructor
    · rintro (h | ⟨d, hd, hfd⟩)
      · exact ⟨c, List.mem_cons_self _ _, h⟩
      · exact ⟨d, List.mem_cons_of_mem _ hd, hfd⟩
    · rintro ⟨d, hd, hfd⟩
      rcases List.mem_cons.mp hd with rfl | hd
      · exact Or.inl hfd
      · exact Or.inr ⟨d, hd, hfd⟩

theorem collect_frames_of_all {t : FrameNode} (h : t.name = "all") :
    collect_frames t = collect_frames_list t.children := by
  match t with
  | .node i cs =>
    rw [collect_frames]
    simp only [FrameNode.name_node] at h
    simp [h]

theorem mem_collect_frames_leaf {f : FrameNode} {i : FrameInfo}
    (h : f ∈ collect_frames (FrameNode.node i [])) : f = FrameNode.node i [] := by
  rw [collect_frames, collect_frames_list] at h
  by_cases hn : i.name == "all"
  · simp [hn] at h
  · simp [hn] at h
    exact h

theorem calculate_layout_root_name (cfg : GenCfg) (merged : List (String × MergedNode))
    (total : ℚ) :
    (calculate_layout cfg (build_tree merged total) total).name = "all" := by
  rw [build_tree, calculate_layout, calc_percent]
  rfl

/-! ## Claim C4 -/

/-- C4 (amended): every zero denominator in layout is a guarded, defined
zero result (the embedding is a total function): with grand total 0 and a
batch of zero-cost records, every collected frame has width 0, and frames
report percentage 0 EXCEPT depth-1 (owner) frames, which always report
percentage 100 — not 0 as the claim stated; and for any total, a
category-level child of an owner whose value is not positive gets width 0
and percentage 0. -/
theorem c4_zero_guard_amended :
    (∀ (cfg : GenCfg) (threads : List ThreadInfo),
      (∀ th ∈ threads, th.cpu_time_ms = 0) →
      ∀ f ∈ collect_frames (calculate_layout cfg
          (build_tree (merge_threads cfg.sort_by_cpu threads) 0) 0),
        f.width = 0 ∧ f.percentage = (if f.depth = 1 then 100 else 0)) ∧
    (∀ (cfg : GenCfg) (sb : Bool) (threads : List ThreadInfo) (total : ℚ),
      ∀ o ∈ (calculate_layout cfg
          (build_tree (merge_threads sb threads) total) total).children,
        o.value ≤ 0 → ∀ c ∈ o.children, c.width = 0 ∧ c.percentage = 0) := by
  constructor
  · intro cfg threads hz f hf
    rw [collect_frames_of_all (calculate_layout_root_name cfg _ 0),
      mem_collect_frames_list] at hf
    rcases hf with ⟨o, ho, hfo⟩
    rcases mem_pipeline_owner ho with ⟨p, hp, hdepth, _, hvalue, hpct, hwidth, _, hchildren⟩
    rcases merged_zero hz p hp with ⟨hcpu0, _⟩
    rcases o with ⟨io, ocs⟩
    rw [collect_frames] at hfo
    rcases List.mem_append.mp hfo with h1 | h2
    · by_cases hn : io.name == "all"
      · simp [hn] at h1
      · simp only [hn, Bool.false_eq_true, if_neg, ite_false, List.mem_singleton] at h1
        subst h1
        refine ⟨?_, ?_⟩
        · rw [hwidth]
          norm_num
        · rw [hpct]
          simp only [FrameNode.depth_node] at hdepth
          simp [FrameNode.depth_node, hdepth]
    · rw [mem_collect_frames_list] at h2
      rcases h2 with ⟨c, hc, hfc⟩
      simp only [FrameNode.children_node] at hchildren
      rcases hchildren c hc with ⟨t, _, hcd, _, _, hcp, hcw, hcc⟩
      rcases c with ⟨ic, ccs⟩
      simp only [FrameNode.children_node] at hcc
      subst hcc
      have hfoc := mem_collect_frames_leaf hfc
      subst hfoc
      refine ⟨?_, ?_⟩
      · rw [hcw]
        simp only [FrameNode.value_node] at hvalue ⊢
        rw [hvalue, hcpu0]
        norm_num
      · rw [hcp, hcpu0]
        simp only [FrameNode.depth_node] at hcd
        simp [hcd]
  · intro cfg sb threads total o ho hneg c hc
    rcases mem_pipeline_owner ho with ⟨p, hp, _, _, hvalue, _, _, _, hchildren⟩
    rcases hchildren c hc with ⟨t, _, _, _, _, hcp, hcw, _⟩
    have hnp : ¬ (0 : ℚ) < o.value := not_lt.mpr hneg
    have hnp' : ¬ (0 : ℚ) < p.2.node_cpu := by rw [← hvalue]; exact hnp
    refine ⟨?_, ?_⟩
    · rw [hcw]
      simp [hnp]
    · rw [hcp]
      simp [hnp']

/-- C4 counterexample: with total = 0 and a single zero-cost record, the
emitted frames have percentages [100, 0]: the owner-level frame reports
percentage 100, not 0, refuting the claim that with total = 0 every frame
in the output has percentage 0. -/
theorem c4_counterexample :
    (collect_frames (calculate_layout {}
        (build_tree (merge_threads false [zeroThread]) 0) 0)).map FrameNode.percentage
      = [100, 0] ∧ (100 : ℚ) ≠ 0 := by
  constructor
  · have h1 : ("N1" = "all") = False := eq_false (by decide)
    have h2 : ("T" = "all") = False := eq_false (by decide)
    norm_num [collect_frames, collect_frames_list, calculate_layout, calc_percent,
      calc_percent_list, build_tree, merge_threads, upsertThreadGroup, zeroThread,
      owner_frame, thread_frame, layout_owners, layout_threads, layout_threads_go,
      GenCfg.ypad1, framepad, FrameNode.percentage, FrameNode.info, h1, h2]
  · norm_num

/-- C4 witness: the zero-parent part of the amended theorem applied to the
concrete laid-out owner of the zero-cost batch and its thread child. -/
theorem c4_witness :
    (FrameNode.node
      ⟨"T", 2, 10, 42, 0, 0, 1, 0, 0, "rgb(255,255,255)", 0, 0⟩ []).width = 0 ∧
    (FrameNode.node
      ⟨"T", 2, 10, 42, 0, 0, 1, 0, 0, "rgb(255,255,255)", 0, 0⟩ []).percentage = 0 :=
  c4_zero_guard_amended.2 {} false [zeroThread] 0
    (FrameNode.node
      ⟨"N1", 1, 10, 61, 0, 0, 1, 100, 100, "rgb(255,255,255)", 0, 10⟩
      [FrameNode.node
        ⟨"T", 2, 10, 42, 0, 0, 1, 0, 0, "rgb(255,255,255)", 0, 0⟩ []])
    (by
      have h1 : ("N1" = "all") = False := eq_false (by decide)
      norm_num [calculate_layout, calc_percent, calc_percent_list, build_tree,
        merge_threads, upsertThreadGroup, zeroThread, owner_frame, thread_frame,
        layout_owners, layout_threads, layout_threads_go, GenCfg.ypad1, framepad,
        FrameNode.children, FrameNode.info, h1])
    (by norm_num)
    (FrameNode.node
      ⟨"T", 2, 10, 42, 0, 0, 1, 0, 0, "rgb(255,255,255)", 0, 0⟩ [])
    (by norm_num [FrameNode.children])

/-! ## Non-negativity and placement lemmas -/

theorem upsertThreadGroup_nonneg {g : List (String × List (String × ℚ × ℕ))}
    {th : ThreadInfo} (hth : 0 ≤ th.cpu_time_ms)
    (hg : ∀ e ∈ g, ∀ v ∈ e.2, 0 ≤ v.2.1) :
    ∀ e ∈ upsertThreadGroup g th, ∀ v ∈ e.2, 0 ≤ v.2.1 := by
  intro e he v hv
  rw [upsertThreadGroup] at he
  have haddThread : ∀ td : List (String × ℚ × ℕ), (∀ w ∈ td, 0 ≤ w.2.1) →
      ∀ w ∈ (if td.any (fun e => e.1 == th.thread_name) then
          updateFirstKey th.thread_name
            (fun v => (v.1 + th.cpu_time_ms, v.2 + th.samples_count)) td
        else td ++ [(th.thread_name, th.cpu_time_ms, th.samples_count)]),
        0 ≤ w.2.1 := by
    intro td htd w hw
    by_cases h : td.any (fun e => e.1 == th.thread_name) = true
    · simp only [h, if_pos] at hw
      rcases updateFirstKey_mem hw with hmem | ⟨y, hy, hwy⟩
      · exact htd w hmem
      · rw [hwy]
        simp only
        have := htd y hy
        linarith
    · simp only [h, Bool.false_eq_true, if_neg, ite_false] at hw
      rcases List.mem_append.mp hw with hmem | hmem
      · exact htd w hmem
      · simp only [List.mem_singleton] at hmem
        rw [hmem]
        exact hth
  by_cases hhit : g.any (fun e => e.1 == th.node_id) = true
  · simp only [hhit, if_pos] at he
    rcases updateFirstKey_mem he with hmem | ⟨y, hy, hey⟩
    · exact hg e hmem v hv
    · rw [hey] at hv
      simp only at hv
      exact haddThread y.2 (hg y hy) v hv
  · simp only [hhit, Bool.false_eq_true, if_neg, ite_false] at he
    rcases List.mem_append.mp he with hmem | hmem
    · exact hg e hmem v hv
    · simp only [List.mem_singleton] at hmem
      rw [hmem] at hv
      simp only at hv
      exact haddThread [] (by intro w hw; exact absurd hw (List.not_mem_nil w)) v hv

theorem foldl_upsertThreadGroup_nonneg {threads : List ThreadInfo}
    (hnn : ∀ th ∈ threads, 0 ≤ th.cpu_time_ms) :
    ∀ acc, (∀ e ∈ acc, ∀ v ∈ (e : String × List (String × ℚ × ℕ)).2, 0 ≤ v.2.1) →
    ∀ e ∈ threads.foldl upsertThreadGroup acc, ∀ v ∈ e.2, 0 ≤ v.2.1 := by
  induction threads with
  | nil => intro acc hacc; exact hacc
  | cons th rest ih =>
    intro acc hacc
    rw [List.foldl_cons]
    exact ih (fun t ht => hnn t (List.mem_cons_of_mem _ ht)) _
      (upsertThreadGroup_nonneg (hnn th (List.mem_cons_self _ _)) hacc)

theorem merged_nonneg {sb : Bool} {threads : List ThreadInfo}
    (hnn : ∀ th ∈ threads, 0 ≤ th.cpu_time_ms) :
    ∀ p ∈ merge_threads sb threads, 0 ≤ p.2.node_cpu := by
  intro p hp
  rw [merge_threads] at hp
  rcases List.mem_map.mp hp with ⟨q, hq, hqp⟩
  have hqz : ∀ v ∈ q.2, 0 ≤ v.2.1 :=
    fun v hv => foldl_upsertThreadGroup_nonneg hnn []
      (by intro e he; exact absurd he (List.not_mem_nil e)) q hq v hv
  have : (0 : ℚ) ≤ (q.2.map (fun e => e.2.1)).sum := by
    apply List.sum_nonneg
    intro x hx
    rcases List.mem_map.mp hx with ⟨v, hv, hvx⟩
    rw [← hvx]
    exact hqz v hv
  rw [← hqp]
  exact this

theorem placed_from_layout_owners (cfg : GenCfg) (total tw : ℚ) :
    ∀ (l : List FrameNode) (x0 : ℚ), placed_from x0 (layout_owners cfg total tw x0 l) := by
  intro l
  induction l with
  | nil => intro x0; rw [layout_owners]; trivial
  | cons hd tl ih =>
    intro x0
    match hd with
    | .node i cs =>
      rw [layout_owners, placed_from]
      exact ⟨by simp, by simpa using ih _⟩

theorem placed_from_layout_threads_go (V W y : ℚ) :
    ∀ (l : List FrameNode) (tx : ℚ), placed_from tx (layout_threads_go V W y tx l) := by
  intro l
  induction l with
  | nil => intro tx; rw [layout_threads_go]; trivial
  | cons hd tl ih =>
    intro tx
    match hd with
    | .node i cs =>
      rw [layout_threads_go, placed_from]
      exact ⟨by simp, by simpa using ih _⟩

theorem placed_from_layout_threads (cfg : GenCfg) :
    ∀ (l : List FrameNode) (x0 : ℚ), placed_from x0 l →
      placed_from x0 (layout_threads cfg l) := by
  intro l
  induction l with
  | nil => intro x0 _; rw [layout_threads]; trivial
  | cons hd tl ih =>
    intro x0 h
    match hd with
    | .node i cs =>
      rw [placed_from] at h
      rw [layout_threads, List.map_cons, placed_from]
      refine ⟨by simpa using h.1, ?_⟩
      have := ih (x0 + (FrameNode.node i cs).width) h.2
      rw [layout_threads] at this
      simpa using this

theorem layout_threads_go_width_sum (V W y : ℚ) :
    ∀ (l : List FrameNode) (tx : ℚ),
      ((layout_threads_go V W y tx l).map FrameNode.width).sum
        = if 0 < V then ((l.map FrameNode.value).sum) / V * W else 0 := by
  intro l
  induction l with
  | nil =>
    intro tx
    rw [layout_threads_go]
    simp only [List.map_nil, List.sum_nil]
    by_cases h : 0 < V
    · simp [h]
    · simp [h]
  | cons hd tl ih =>
    intro tx
    match hd with
    | .node i cs =>
      rw [layout_threads_go, List.map_cons, List.sum_cons, ih, List.map_cons, List.sum_cons]
      by_cases h : 0 < V
      · simp only [h, if_pos, FrameNode.width_node, FrameNode.value_node]
        ring
      · simp [h]

theorem mem_pipeline_owner_layout {cfg : GenCfg} {sb : Bool} {threads : List ThreadInfo}
    {total : ℚ} {o : FrameNode}
    (ho : o ∈ (calculate_layout cfg (build_tree (merge_threads sb threads) total) total).children) :
    ∃ p ∈ merge_threads sb threads,
      o.value = p.2.node_cpu ∧
      o.width = (if 0 < total then p.2.node_cpu / total * (cfg.width - 2 * cfg.xpad) else 0) ∧
      (o.children.map FrameNode.value).sum = p.2.node_cpu ∧
      o.children = layout_threads_go o.value o.width cfg.ypad1 o.x
        (calc_percent_list p.2.node_cpu (p.2.threads.map thread_frame)) := by
  rw [layout_children_eq, layout_threads] at ho
  rcases List.mem_map.mp ho with ⟨o1, ho1, ho1o⟩
  rcases mem_layout_owners ho1 with ⟨i1, cs1, x1, hmem1, heq1⟩
  rw [calc_percent_list_eq_map] at hmem1
  simp only [build_tree, FrameNode.children_node, List.map_map] at hmem1
  rcases List.mem_map.mp hmem1 with ⟨p, hp, hpeq⟩
  simp only [Function.comp] at hpeq
  rw [calc_percent_owner] at hpeq
  injection hpeq with hinfo hchild
  refine ⟨p, hp, ?_⟩
  subst hinfo
  subst hchild
  subst heq1
  rw [← ho1o]
  simp only []
  refine ⟨by simp, by simp, ?_, ?_⟩
  · rw [FrameNode.children_node, layout_threads_go_values, calc_percent_list_eq_map]
    simp only [List.map_map]
    have hmapeq : (p.2.threads.map (FrameNode.value ∘ calc_percent p.2.node_cpu ∘ thread_frame))
        = p.2.threads.map (fun t => t.2.1) := by
      refine List.map_congr_left ?_
      intro t _
      simp only [Function.comp, calc_percent_thread, FrameNode.value_node]
    rw [hmapeq]
    rcases merged_threads_shape sb threads p hp with ⟨td, hcpu, _, hperm, _⟩
    rw [hperm.sum_eq, ← hcpu]
  · simp [calc_percent_list_eq_map]

/-! ## Claim C6 -/

/-- C6: for every merged owner list and total > 0 (costs non-negative, per
the data-model invariant), owner-level frames are placed left-to-right
starting at x = pad with width = (value/total) * (canvas_width - 2*pad),
consecutive siblings exactly adjacent (each next x is the previous x plus
the previous width); each owner's category-level children are placed
left-to-right within the owner's span starting at the owner's x, with
width = (child value / owner value) * owner width (0 when the owner value
is 0), and the children's widths sum exactly to the owner's width. -/
theorem c6_layout_proportional (cfg : GenCfg) (sb : Bool) (threads : List ThreadInfo)
    (total : ℚ) (h0 : 0 < total) (hnn : ∀ th ∈ threads, 0 ≤ th.cpu_time_ms) :
    placed_from cfg.xpad
      ((calculate_layout cfg (build_tree (merge_threads sb threads) total) total).children) ∧
    ∀ o ∈ (calculate_layout cfg (build_tree (merge_threads sb threads) total) total).children,
      o.width = o.value / total * (cfg.width - 2 * cfg.xpad) ∧
      placed_from o.x o.children ∧
      (o.children.map FrameNode.width).sum = o.width ∧
      ∀ c ∈ o.children,
        c.width = (if 0 < o.value then c.value / o.value * o.width else 0) := by
  constructor
  · rw [layout_children_eq]
    exact placed_from_layout_threads cfg _ _ (placed_from_layout_owners cfg total _ _ _)
  · intro o ho
    rcases mem_pipeline_owner_layout ho with ⟨p, hp, hval, hwidth, hsum, hchild⟩
    have hvnn : 0 ≤ o.value := by rw [hval]; exact merged_nonneg hnn p hp
    refine ⟨?_, ?_, ?_, ?_⟩
    · rw [hwidth, hval]
      simp [h0]
    · rw [hchild]
      exact placed_from_layout_threads_go _ _ _ _ _
    · rw [hchild, layout_threads_go_width_sum]
      have hsum' : ((layout_threads_go o.value o.width cfg.ypad1 o.x
          (calc_percent_list p.2.node_cpu (p.2.threads.map thread_frame))).map
            FrameNode.value).sum = p.2.node_cpu := by
        rw [← hchild]; exact hsum
      rw [layout_threads_go_values] at hsum'
      rw [hsum']
      by_cases hv : 0 < o.value
      · rw [if_pos hv, ← hval]
        field_simp
      · have hv0 : o.value = 0 := le_antisymm (not_lt.mp hv) hvnn
        rw [if_neg hv, hwidth, ← hval, hv0]
        simp
    · intro c hc
      rcases mem_pipeline_owner ho with ⟨p', hp', _, _, hval', _, _, _, hchildren⟩
      rcases hchildren c hc with ⟨t, _, _, _, hcv, _, hcw, _⟩
      exact hcw

/-- C6 witness: the adjacency part of the theorem at a concrete one-thread
batch with total 5, discharging both hypotheses. -/
theorem c6_witness :
    placed_from ({} : GenCfg).xpad
      ((calculate_layout {} (build_tree (merge_threads false [allNamedThread]) 5) 5).children) :=
  (c6_layout_proportional {} false [allNamedThread] 5 (by norm_num)
    (by
      intro th ht
      rcases List.mem_singleton.mp ht with rfl
      norm_num [allNamedThread])).1

theorem parent_of_mem {tm : List TaskInfo} {t p : TaskInfo}
    (h : parent_of tm t = some p) : p ∈ tm :=
  List.mem_of_find?_eq_some h

theorem parent_of_id {tm : List TaskInfo} {t p : TaskInfo}
    (h : parent_of tm t = some p) : p.task_id = t.parent_task_id := by
  have := List.find?_some h
  exact eq_of_beq this

theorem task_eq_of_id {tm : List TaskInfo} (hnd : (tm.map TaskInfo.task_id).Nodup)
    {u v : TaskInfo} (hu : u ∈ tm) (hv : v ∈ tm) (h : u.task_id = v.task_id) : u = v :=
  List.inj_on_of_nodup_map hnd hu hv h

theorem find_id_unique {tm : List TaskInfo} (hnd : (tm.map TaskInfo.task_id).Nodup)
    {t : TaskInfo} (ht : t ∈ tm) {s : String} (hs : t.task_id = s) :
    tm.find? (fun u => u.task_id == s) = some t := by
  induction tm with
  | nil => exact absurd ht (List.not_mem_nil t)
  | cons a rest ih =>
    rw [List.find?]
    by_cases ha : a.task_id == s
    · simp only [ha]
      rcases List.mem_cons.mp ht with rfl | hmem
      · rfl
      · exfalso
        rw [List.map_cons] at hnd
        rcases List.nodup_cons.mp hnd with ⟨hnot, _⟩
        apply hnot
        rw [eq_of_beq ha, ← hs]
        exact List.mem_map.mpr ⟨t, hmem, rfl⟩
    · simp only [Bool.not_eq_true] at ha
      simp only [ha]
      rcases List.mem_cons.mp ht with rfl | hmem
      · exfalso
        rw [hs] at ha
        simp at ha
      · rw [List.map_cons] at hnd
        exact ih (List.nodup_cons.mp hnd).2 hmem

theorem parent_of_child {tm : List TaskInfo} (hnd : (tm.map TaskInfo.task_id).Nodup)
    {t c : TaskInfo} (ht : t ∈ tm) (hc : c.parent_task_id = t.task_id) :
    parent_of tm c = some t := by
  rw [parent_of, hc]
  exact find_id_unique hnd ht rfl

theorem rootedAt_unique {tm : List TaskInfo} {t : TaskInfo} :
    ∀ {d d' : ℕ}, RootedAt tm d t → RootedAt tm d' t → d = d' := by
  intro d
  induction d using Nat.strong_induction_on generalizing t with
  | _ d ih =>
    intro d' h1 h2
    cases h1 with
    | base hnone =>
      cases h2 with
      | base _ => rfl
      | step hsome _ => rw [hnone] at hsome; exact absurd hsome (by simp)
    | @step _ p d1 hsome hp =>
      cases h2 with
      | base hnone => rw [hnone] at hsome; exact absurd hsome (by simp)
      | @step _ p' d2 hsome' hp' =>
        have hpp : p = p' := by
          rw [hsome] at hsome'
          exact Option.some.inj hsome'
        subst hpp
        have := ih d1 (by omega) hp hp'
        omega

theorem chainF_length {tm : List TaskInfo} :
    ∀ {d : ℕ} {t : TaskInfo}, RootedAt tm d t → (chainF tm d t).length = d + 1 := by
  intro d
  induction d with
  | zero => intro t _; rfl
  | succ n ih =>
    intro t h
    cases h with
    | step hsome hp =>
      rw [chainF, hsome]
      simp only [List.length_cons]
      rw [ih hp]

theorem chainF_mem_rooted {tm : List TaskInfo} :
    ∀ {d : ℕ} {t : TaskInfo}, RootedAt tm d t →
      ∀ u ∈ chainF tm d t, ∃ du ≤ d, RootedAt tm du u := by
  intro d
  induction d with
  | zero =>
    intro t h u hu
    rw [chainF] at hu
    rcases List.mem_singleton.mp hu with rfl
    exact ⟨0, le_refl 0, h⟩
  | succ n ih =>
    intro t h u hu
    cases h with
    | step hsome hp =>
      rw [chainF, hsome] at hu
      rcases List.mem_cons.mp hu with rfl | hu
      · exact ⟨n + 1, le_refl _, RootedAt.step hsome hp⟩
      · rcases ih hp u hu with ⟨du, hle, hr⟩
        exact ⟨du, by omega, hr⟩

theorem chainF_nodup {tm : List TaskInfo} :
    ∀ {d : ℕ} {t : TaskInfo}, RootedAt tm d t → (chainF tm d t).Nodup := by
  intro d
  induction d with
  | zero => intro t _; simp [chainF]
  | succ n ih =>
    intro t h
    cases h with
    | step hsome hp =>
      rw [chainF, hsome]
      refine List.nodup_cons.mpr ⟨?_, ih hp⟩
      intro hmem
      rcases chainF_mem_rooted hp t hmem with ⟨du, hle, hr⟩
      have := rootedAt_unique (RootedAt.step hsome hp) hr
      omega

theorem chainF_subset {tm : List TaskInfo} :
    ∀ {d : ℕ} {t : TaskInfo}, t ∈ tm → RootedAt tm d t →
      ∀ u ∈ chainF tm d t, u ∈ tm := by
  intro d
  induction d with
  | zero =>
    intro t ht _ u hu
    rw [chainF] at hu
    rcases List.mem_singleton.mp hu with rfl
    exact ht
  | succ n ih =>
    intro t ht h u hu
    cases h with
    | step hsome hp =>
      rw [chainF, hsome] at hu
      rcases List.mem_cons.mp hu with rfl | hu
      · exact ht
      · exact ih (parent_of_mem hsome) hp u hu

theorem rootedAt_lt_length {tm : List TaskInfo} {d : ℕ} {t : TaskInfo}
    (ht : t ∈ tm) (h : RootedAt tm d t) : d < tm.length := by
  have hsub : (chainF tm d t).Subperm tm :=
    List.subperm_of_subset (chainF_nodup h) (chainF_subset ht h)
  have := hsub.length_le
  rw [chainF_length h] at this
  omega

theorem up_trans {tm : List TaskInfo} {u v w : TaskInfo}
    (h1 : UpChain tm u v) (h2 : UpChain tm v w) : UpChain tm u w := by
  induction h1 with
  | refl => exact h2
  | step hsome _ ih => exact UpChain.step hsome (ih h2)

theorem up_mem {tm : List TaskInfo} {u t : TaskInfo}
    (hu : u ∈ tm) (h : UpChain tm u t) : t ∈ tm := by
  induction h with
  | refl => exact hu
  | step hsome _ ih => exact ih (parent_of_mem hsome)

theorem chain_depth {tm : List TaskInfo} {u t : TaskInfo} {dt : ℕ}
    (h : UpChain tm u t) (ht : RootedAt tm dt t) :
    ∃ du, RootedAt tm du u ∧ dt ≤ du ∧ (du = dt → u = t) := by
  induction h with
  | refl => exact ⟨dt, ht, le_refl dt, fun _ => rfl⟩
  | step hsome _ ih =>
    rcases ih ht with ⟨dp, hdp, hle, _⟩
    exact ⟨dp + 1, RootedAt.step hsome hdp, by omega, fun h => by omega⟩

theorem up_total {tm : List TaskInfo} {u a b : TaskInfo}
    (h1 : UpChain tm u a) (h2 : UpChain tm u b) :
    UpChain tm a b ∨ UpChain tm b a := by
  induction h1 generalizing b with
  | refl => exact Or.inl h2
  | @step u' p a' hsome hup ih =>
    cases h2 with
    | refl => exact Or.inr (UpChain.step hsome hup)
    | @step _ p' b' hsome' hup' =>
      have hpp : p = p' := by rw [hsome] at hsome'; exact Option.some.inj hsome'
      subst hpp
      exact ih hup'

theorem up_antisym_depth {tm : List TaskInfo} {a b : TaskInfo} {da db : ℕ}
    (h : UpChain tm a b) (ha : RootedAt tm da a) (hb : RootedAt tm db b)
    (hd : da = db) : a = b := by
  rcases chain_depth h hb with ⟨da', hda', hle, heq⟩
  have : da' = da := rootedAt_unique hda' ha
  exact heq (by omega)

theorem rootedAt_child {tm : List TaskInfo} (hnd : (tm.map TaskInfo.task_id).Nodup)
    {t c : TaskInfo} {d : ℕ} (h : RootedAt tm d t) (ht : t ∈ tm)
    (hc : c.parent_task_id = t.task_id) : RootedAt tm (d + 1) c :=
  RootedAt.step (parent_of_child hnd ht hc) h

theorem chain_child {tm : List TaskInfo} {u t : TaskInfo}
    (h : UpChain tm u t) (hne : u ≠ t) :
    ∃ c, UpChain tm u c ∧ parent_of tm c = some t := by
  induction h with
  | refl => exact absurd rfl hne
  | @step u' p t' hsome hup ih =>
    by_cases hpt : p = t'
    · subst hpt
      exact ⟨u', UpChain.refl u', hsome⟩
    · rcases ih hpt with ⟨c, hc1, hc2⟩
      exact ⟨c, up_trans (UpChain.step hsome (UpChain.refl p)) hc1, hc2⟩

theorem chain_root {tm : List TaskInfo} :
    ∀ {d : ℕ} {u : TaskInfo}, RootedAt tm d u →
      ∃ r, UpChain tm u r ∧ parent_of tm r = none := by
  intro d
  induction d with
  | zero =>
    intro u h
    cases h with
    | base hnone => exact ⟨u, UpChain.refl u, hnone⟩
  | succ n ih =>
    intro u h
    cases h with
    | step hsome hp =>
      rcases ih hp with ⟨r, hr1, hr2⟩
      exact ⟨r, UpChain.step hsome hr1, hr2⟩

theorem ancB_sound {tm : List TaskInfo} (hnd : (tm.map TaskInfo.task_id).Nodup) :
    ∀ (fuel : ℕ) {u t : TaskInfo}, u ∈ tm → t ∈ tm →
      ancB tm fuel u t = true → UpChain tm u t := by
  intro fuel
  induction fuel with
  | zero => intro u t _ _ h; rw [ancB] at h; exact absurd h (by simp)
  | succ n ih =>
    intro u t hu ht h
    rw [ancB] at h
    rw [Bool.or_eq_true] at h
    rcases h with hid | hrest
    · have : u = t := task_eq_of_id hnd hu ht (eq_of_beq hid)
      rw [this]
      exact UpChain.refl t
    · cases hpar : parent_of tm u with
      | none => rw [hpar] at hrest; exact absurd hrest (by simp)
      | some p =>
        rw [hpar] at hrest
        exact UpChain.step hpar (ih (parent_of_mem hpar) ht hrest)

theorem ancB_complete {tm : List TaskInfo} :
    ∀ {u t : TaskInfo} {du fuel : ℕ}, UpChain tm u t → RootedAt tm du u →
      du < fuel → ancB tm fuel u t = true := by
  intro u t du fuel h
  induction h generalizing du fuel with
  | refl =>
    intro _ hf
    match fuel with
    | f + 1 =>
      rw [ancB]
      simp
  | @step u' p t' hsome hup ih =>
    intro hru hf
    cases hru with
    | base hnone => rw [hnone] at hsome; exact absurd hsome (by simp)
    | @step _ p' d hsome' hp' =>
      have hpp : p = p' := by rw [hsome] at hsome'; exact Option.some.inj hsome'
      subst hpp
      match fuel with
      | f + 1 =>
        rw [ancB, hsome]
        have := @ih d f hp' (by omega)
        simp [this]

theorem countP_eq_map_sum {α : Type} (p : α → Bool) (l : List α) :
    l.countP p = (l.map (fun a => if p a then 1 else 0)).sum := by
  induction l with
  | nil => rfl
  | cons a rest ih =>
    rw [List.countP_cons, List.map_cons, List.sum_cons, ih]
    by_cases h : p a
    · simp [h]
      omega
    · simp [h]

theorem map_sum_congr {α : Type} {f g : α → ℕ} :
    ∀ {l : List α}, (∀ x ∈ l, f x = g x) → (l.map f).sum = (l.map g).sum := by
  intro l
  induction l with
  | nil => intro _; rfl
  | cons a rest ih =>
    intro h
    rw [List.map_cons, List.map_cons, List.sum_cons, List.sum_cons,
      h a (List.mem_cons_self _ _), ih (fun x hx => h x (List.mem_cons_of_mem _ hx))]

theorem map_add_sum {α : Type} (f g : α → ℕ) :
    ∀ (l : List α), (l.map (fun a => f a + g a)).sum = (l.map f).sum + (l.map g).sum := by
  intro l
  induction l with
  | nil => rfl
  | cons a rest ih =>
    simp only [List.map_cons, List.sum_cons, ih]
    omega

theorem map_sum_swap {α β : Type} (f : α → β → ℕ) :
    ∀ (l2 : List β) (l1 : List α),
      (l1.map (fun a => (l2.map (fun b => f a b)).sum)).sum
        = (l2.map (fun b => (l1.map (fun a => f a b)).sum)).sum := by
  intro l2
  induction l2 with
  | nil =>
    intro l1
    simp
  | cons b rest ih =>
    intro l1
    simp only [List.map_cons, List.sum_cons]
    rw [← ih l1]
    have := map_add_sum (fun a => f a b) (fun a => (rest.map (fun c => f a c)).sum) l1
    simp only at this ⊢
    rw [← this]

theorem map_exactly_one {α : Type} {p : α → Prop} [DecidablePred p] :
    ∀ {l : List α}, l.Nodup → ∀ {c}, c ∈ l → p c → (∀ x ∈ l, p x → x = c) →
      (l.map (fun x => if p x then 1 else 0)).sum = 1 := by
  intro l
  induction l with
  | nil => intro _ c hc; exact absurd hc (List.not_mem_nil c)
  | cons a rest ih =>
    intro hnd c hc hpc huniq
    rw [List.map_cons, List.sum_cons]
    rcases List.mem_cons.mp hc with rfl | hc
    · rw [if_pos hpc]
      have : ∀ x ∈ rest, ¬ p x := by
        intro x hx hpx
        have := huniq x (List.mem_cons_of_mem _ hx) hpx
        subst this
        exact (List.nodup_cons.mp hnd).1 hx
      have hzero : (rest.map (fun x => if p x then 1 else 0)).sum = 0 := by
        apply List.sum_eq_zero
        intro y hy
        rcases List.mem_map.mp hy with ⟨x, hx, hxy⟩
        rw [← hxy, if_neg (this x hx)]
      omega
    · have hac : ¬ p a := by
        intro hpa
        have := huniq a (List.mem_cons_self _ _) hpa
        subst this
        exact (List.nodup_cons.mp hnd).1 hc
      rw [if_neg hac]
      have := ih (List.nodup_cons.mp hnd).2 hc hpc
        (fun x hx hpx => huniq x (List.mem_cons_of_mem _ hx) hpx)
      omega

theorem map_all_zero {α : Type} {p : α → Prop} [DecidablePred p] {l : List α}
    (h : ∀ x ∈ l, ¬ p x) :
    (l.map (fun x => if p x then 1 else 0)).sum = 0 := by
  apply List.sum_eq_zero
  intro y hy
  rcases List.mem_map.mp hy with ⟨x, hx, hxy⟩
  rw [← hxy, if_neg (h x hx)]

theorem anc_pointwise {tm : List TaskInfo} (hnd : (tm.map TaskInfo.task_id).Nodup)
    {t : TaskInfo} {dt : ℕ} (ht : t ∈ tm) (hrt : RootedAt tm dt t)
    {u : TaskInfo} (hu : u ∈ tm) :
    (if ancB tm tm.length u t = true then (1 : ℕ) else 0)
      = (if u = t then (1 : ℕ) else 0)
        + ((tm.filter (fun c => c.parent_task_id == t.task_id)).map
            (fun c => if ancB tm tm.length u c = true then (1 : ℕ) else 0)).sum := by
  have hchild_mem : ∀ c, c ∈ tm.filter (fun c => c.parent_task_id == t.task_id) →
      c ∈ tm ∧ c.parent_task_id = t.task_id := by
    intro c hc
    rcases List.mem_filter.mp hc with ⟨h1, h2⟩
    exact ⟨h1, eq_of_beq h2⟩
  by_cases hroot : ∃ du, RootedAt tm du u
  · rcases hroot with ⟨du, hdu⟩
    by_cases hchain : UpChain tm u t
    · by_cases hut : u = t
      · subst hut
        rw [if_pos (ancB_complete (UpChain.refl u) hdu (rootedAt_lt_length hu hdu)),
          if_pos rfl]
        have hz := map_all_zero (p := fun c => ancB tm tm.length u c = true)
          (l := tm.filter (fun c => c.parent_task_id == u.task_id)) ?_
        · rw [hz]
        · intro c hc habs
          rcases hchild_mem c hc with ⟨hcm, hcp⟩
          have hcr : RootedAt tm (dt + 1) c := rootedAt_child hnd hrt hu hcp
          have hcu : UpChain tm u c := ancB_sound hnd tm.length hu hcm habs
          rcases chain_depth hcu hcr with ⟨du', hdu', hle, _⟩
          have h1 : du' = du := rootedAt_unique hdu' hdu
          have h2 : du = dt := rootedAt_unique hdu hrt
          omega
      · rw [if_pos (ancB_complete hchain hdu (rootedAt_lt_length hu hdu)), if_neg hut]
        rcases chain_child hchain hut with ⟨c0, hc0chain, hc0par⟩
        have hc0mem : c0 ∈ tm := up_mem hu hc0chain
        have hc0pred : c0.parent_task_id = t.task_id := (parent_of_id hc0par).symm
        have hc0filter : c0 ∈ tm.filter (fun c => c.parent_task_id == t.task_id) :=
          List.mem_filter.mpr ⟨hc0mem, beq_iff_eq.mpr hc0pred⟩
        have hsum := map_exactly_one (p := fun c => ancB tm tm.length u c = true)
          ((List.Nodup.of_map _ hnd).filter _) hc0filter
          (ancB_complete hc0chain hdu (rootedAt_lt_length hu hdu)) ?_
        · rw [hsum]
        · intro c' hc' hanc'
          rcases hchild_mem c' hc' with ⟨hc'm, hc'p⟩
          have hc'chain : UpChain tm u c' := ancB_sound hnd tm.length hu hc'm hanc'
          have hr0 : RootedAt tm (dt + 1) c0 := rootedAt_child hnd hrt ht hc0pred
          have hr' : RootedAt tm (dt + 1) c' := rootedAt_child hnd hrt ht hc'p
          rcases up_total hc'chain hc0chain with h | h
          · exact up_antisym_depth h hr' hr0 rfl
          · exact (up_antisym_depth h hr0 hr' rfl).symm
    · have hF : ¬ (ancB tm tm.length u t = true) :=
        fun habs => hchain (ancB_sound hnd tm.length hu ht habs)
      rw [if_neg hF, if_neg (fun h : u = t => hchain (h ▸ UpChain.refl u))]
      have hz := map_all_zero (p := fun c => ancB tm tm.length u c = true)
        (l := tm.filter (fun c => c.parent_task_id == t.task_id)) ?_
      · rw [hz]
      · intro c hc habs
        rcases hchild_mem c hc with ⟨hcm, hcp⟩
        have hcu : UpChain tm u c := ancB_sound hnd tm.length hu hcm habs
        have hct : UpChain tm c t :=
          UpChain.step (parent_of_child hnd ht hcp) (UpChain.refl t)
        exact hchain (up_trans hcu hct)
  · have hF : ¬ (ancB tm tm.length u t = true) := by
      intro habs
      have hcu := ancB_sound hnd tm.length hu ht habs
      rcases chain_depth hcu hrt with ⟨du, hdu, _, _⟩
      exact hroot ⟨du, hdu⟩
    have hut : ¬ (u = t) := by
      intro h
      subst h
      exact hroot ⟨dt, hrt⟩
    rw [if_neg hF, if_neg hut]
    have hz := map_all_zero (p := fun c => ancB tm tm.length u c = true)
      (l := tm.filter (fun c => c.parent_task_id == t.task_id)) ?_
    · rw [hz]
    · intro c hc habs
      rcases hchild_mem c hc with ⟨hcm, hcp⟩
      have hcu : UpChain tm u c := ancB_sound hnd tm.length hu hcm habs
      have hcr : RootedAt tm (dt + 1) c := rootedAt_child hnd hrt ht hcp
      rcases chain_depth hcu hcr with ⟨du, hdu, _, _⟩
      exact hroot ⟨du, hdu⟩

theorem countP_anc_split {tm : List TaskInfo} (hnd : (tm.map TaskInfo.task_id).Nodup)
    {t : TaskInfo} {dt : ℕ} (ht : t ∈ tm) (hrt : RootedAt tm dt t) :
    tm.countP (fun u => ancB tm tm.length u t)
      = 1 + ((tm.filter (fun c => c.parent_task_id == t.task_id)).map
          (fun c => tm.countP (fun u => ancB tm tm.length u c))).sum := by
  rw [countP_eq_map_sum]
  rw [map_sum_congr (fun u hu => anc_pointwise hnd ht hrt hu)]
  rw [map_add_sum]
  have h1 : (tm.map (fun u => if u = t then (1 : ℕ) else 0)).sum = 1 :=
    map_exactly_one (p := fun u => u = t) (List.Nodup.of_map _ hnd) ht rfl
      (fun x _ h => h)
  rw [h1]
  have h2 : (tm.map (fun u =>
      ((tm.filter (fun c => c.parent_task_id == t.task_id)).map
        (fun c => if ancB tm tm.length u c = true then (1 : ℕ) else 0)).sum)).sum
    = ((tm.filter (fun c => c.parent_task_id == t.task_id)).map
        (fun c => (tm.map
          (fun u => if ancB tm tm.length u c = true then (1 : ℕ) else 0)).sum)).sum :=
    map_sum_swap (fun u c => if ancB tm tm.length u c = true then (1 : ℕ) else 0) _ tm
  rw [h2]
  congr 1
  refine map_sum_congr ?_
  intro c _
  rw [countP_eq_map_sum]

theorem accumulate_succ (n : ℕ) (tm : List TaskInfo) (t : TaskInfo) :
    accumulate_task_time (n + 1) tm t
      = ((tm.filter (fun c => c.parent_task_id == t.task_id)).foldl
          (fun acc c =>
            match acc with
            | none => none
            | some r =>
              match accumulate_task_time n tm c with
              | none => none
              | some s => some (r.1 + s.1, r.2.1 + s.2.1, r.2.2 ++ s.2.2))
          (some (t.running_time_nanos, 1,
            if t.description = "" then []
            else [⟨t.running_time_nanos, t.description, t.action, none⟩]))).map
          (fun r => (r.1, r.2.1, merge_children r.2.2)) := by
  rw [accumulate_task_time]

theorem accumulate_count {tm : List TaskInfo} (hnd : (tm.map TaskInfo.task_id).Nodup) :
    ∀ (fuel : ℕ) (t : TaskInfo) (dt : ℕ), t ∈ tm → RootedAt tm dt t →
      tm.length ≤ dt + fuel →
      ∃ r, accumulate_task_time fuel tm t = some r ∧
        r.2.1 = tm.countP (fun u => ancB tm tm.length u t) := by
  intro fuel
  induction fuel with
  | zero =>
    intro t dt ht hrt hlen
    exact absurd (rootedAt_lt_length ht hrt) (by omega)
  | succ n ih =>
    intro t dt ht hrt hlen
    have hchildren : ∀ c ∈ tm.filter (fun c => c.parent_task_id == t.task_id),
        ∃ rc, accumulate_task_time n tm c = some rc ∧
          rc.2.1 = tm.countP (fun u => ancB tm tm.length u c) := by
      intro c hc
      rcases List.mem_filter.mp hc with ⟨hcm, hcp⟩
      exact ih c (dt + 1) hcm (rootedAt_child hnd hrt ht (eq_of_beq hcp)) (by omega)
    have hfold : ∀ (cl : List TaskInfo),
        (∀ c ∈ cl, ∃ rc, accumulate_task_time n tm c = some rc ∧
          rc.2.1 = tm.countP (fun u => ancB tm tm.length u c)) →
        ∀ (acc : ℤ × ℕ × List ChildInfo),
        ∃ T C L,
          cl.foldl
            (fun acc c =>
              match acc with
              | none => none
              | some r =>
                match accumulate_task_time n tm c with
                | none => none
                | some s => some (r.1 + s.1, r.2.1 + s.2.1, r.2.2 ++ s.2.2))
            (some acc) = some (T, C, L) ∧
          C = acc.2.1
            + (cl.map (fun c => tm.countP (fun u => ancB tm tm.length u c))).sum := by
      intro cl
      induction cl with
      | nil =>
        intro _ acc
        exact ⟨acc.1, acc.2.1, acc.2.2, rfl, by simp⟩
      | cons c cl ihc =>
        intro hall acc
        rcases hall c (List.mem_cons_self _ _) with ⟨rc, hrc, hrcC⟩
        rw [List.foldl_cons]
        rcases ihc (fun d hd => hall d (List.mem_cons_of_mem _ hd))
          (acc.1 + rc.1, acc.2.1 + rc.2.1, acc.2.2 ++ rc.2.2) with ⟨T, C, L, hfd, hC⟩
        refine ⟨T, C, L, ?_, ?_⟩
        · rw [hrc]
          exact hfd
        · rw [hC, List.map_cons, List.sum_cons]
          simp only
          omega
    rcases hfold (tm.filter (fun c => c.parent_task_id == t.task_id)) hchildren
      (t.running_time_nanos, 1,
        if t.description = "" then []
        else [⟨t.running_time_nanos, t.description, t.action, none⟩]) with
      ⟨T, C, L, hfd, hC⟩
    refine ⟨(T, C, merge_children L), ?_, ?_⟩
    · rw [accumulate_succ, hfd]
      rfl
    · simp only
      rw [hC, countP_anc_split hnd ht hrt]

theorem foldl_insertTask_eq :
    ∀ (l acc : List TaskInfo), (((acc ++ l).map TaskInfo.task_id)).Nodup →
      l.foldl insertTask acc = acc ++ l := by
  intro l
  induction l with
  | nil => intro acc _; simp
  | cons t l ih =>
    intro acc h
    rw [List.foldl_cons]
    have hany : acc.any (fun u => u.task_id == t.task_id) = false := by
      rw [List.any_eq_false]
      intro u hu hbeq
      have hid : u.task_id = t.task_id := eq_of_beq hbeq
      rw [List.map_append] at h
      rcases List.nodup_append.mp h with ⟨_, _, hdisj⟩
      exact hdisj (List.mem_map.mpr ⟨u, hu, rfl⟩)
        (by rw [hid]; exact List.mem_map.mpr ⟨t, List.mem_cons_self _ _, rfl⟩)
    rw [insertTask, hany]
    simp only [Bool.false_eq_true, if_neg, ite_false]
    have := ih (acc ++ [t]) (by simpa using h)
    rw [this]
    simp

theorem buildTaskMap_eq_self {tasks : List TaskInfo}
    (hnd : (tasks.map TaskInfo.task_id).Nodup) : buildTaskMap tasks = tasks := by
  rw [buildTaskMap]
  have := foldl_insertTask_eq tasks [] (by simpa using hnd)
  simpa using this

theorem rootedB_some {tm : List TaskInfo} :
    ∀ (fuel : ℕ) (t : TaskInfo), rootedB tm fuel t = true →
      ∃ d, d < fuel ∧ RootedAt tm d t := by
  intro fuel
  induction fuel with
  | zero => intro t h; rw [rootedB] at h; exact absurd h (by simp)
  | succ n ih =>
    intro t h
    rw [rootedB] at h
    cases hpar : parent_of tm t with
    | none => exact ⟨0, by omega, RootedAt.base hpar⟩
    | some p =>
      rw [hpar] at h
      rcases ih p h with ⟨d, hd, hr⟩
      exact ⟨d + 1, by omega, RootedAt.step hpar hr⟩

theorem root_parent_none {tm : List TaskInfo}
    (hne : "" ∉ tm.map TaskInfo.task_id) {t : TaskInfo}
    (h : is_root_task tm t = true) : parent_of tm t = none := by
  rw [is_root_task, Bool.or_eq_true] at h
  rw [parent_of, List.find?_eq_none]
  intro u hu hbeq
  have hid : u.task_id = t.parent_task_id := eq_of_beq hbeq
  rcases h with h | h
  · have : t.parent_task_id = "" := eq_of_beq h
    rw [this] at hid
    exact hne (List.mem_map.mpr ⟨u, hu, hid⟩)
  · rw [Bool.not_eq_eq_eq_not, Bool.not_true, List.any_eq_false] at h
    exact absurd hbeq (h u hu)

theorem parent_none_root {tm : List TaskInfo} {t : TaskInfo}
    (h : parent_of tm t = none) : is_root_task tm t = true := by
  rw [parent_of, List.find?_eq_none] at h
  rw [is_root_task, Bool.or_eq_true]
  right
  rw [Bool.not_eq_eq_eq_not, Bool.not_true, List.any_eq_false]
  exact h

theorem updateFirstKey_sum_nat {κ β : Type} [BEq κ] (g : β → ℕ) (δ : ℕ) (k : κ)
    (f : β → β) (hf : ∀ v, g (f v) = g v + δ) :
    ∀ l : List (κ × β), l.any (fun p => p.1 == k) = true →
    ((updateFirstKey k f l).map (fun p => g p.2)).sum = (l.map (fun p => g p.2)).sum + δ := by
  intro l
  induction l with
  | nil => intro h; simp at h
  | cons p rest ih =>
    intro h
    rw [updateFirstKey]
    by_cases hp : p.1 == k
    · simp only [hp, if_pos, List.map_cons, List.sum_cons, hf]
      omega
    · simp only [hp, Bool.false_eq_true, if_neg, ite_false, List.map_cons, List.sum_cons]
      have hrest : rest.any (fun q => q.1 == k) = true := by
        rcases List.any_eq_true.mp h with ⟨q, hq, hqk⟩
        rcases List.mem_cons.mp hq with rfl | hq
        · exact absurd hqk (by simpa using hp)
        · exact List.any_eq_true.mpr ⟨q, hq, hqk⟩
      rw [ih hrest]
      omega

theorem upsertAction_sum (acts : List (String × ActionEntry)) (action : String)
    (T : ℤ) (C : ℕ) (L : List ChildInfo) :
    ((upsertAction acts action T C L).map (fun q => q.2.task_count)).sum
      = (acts.map (fun q => q.2.task_count)).sum + C := by
  rw [upsertAction]
  by_cases h : acts.any (fun p => p.1 == action) = true
  · simp only [h, if_pos]
    exact updateFirstKey_sum_nat (fun e => e.task_count) C action
      (fun e => { e with total_time := e.total_time + T,
                         task_count := e.task_count + C,
                         children := e.children ++ L })
      (fun e => rfl) acts h
  · simp only [h, Bool.false_eq_true, if_neg, ite_false]
    rw [List.map_append, List.sum_append]
    rfl

theorem upsertNodeEntry_sum (res : List (String × List (String × ActionEntry)))
    (nid action : String) (T : ℤ) (C : ℕ) (L : List ChildInfo) :
    sum_task_counts (upsertNodeEntry res nid action T C L)
      = sum_task_counts res + C := by
  rw [upsertNodeEntry, sum_task_counts, sum_task_counts]
  by_cases h : res.any (fun p => p.1 == nid) = true
  · simp only [h, if_pos]
    exact updateFirstKey_sum_nat (fun acts => (acts.map (fun q => q.2.task_count)).sum)
      C nid (fun acts => upsertAction acts action T C L)
      (fun acts => upsertAction_sum acts action T C L) res h
  · simp only [h, Bool.false_eq_true, if_neg, ite_false]
    rw [List.map_append, List.sum_append]
    simp only [List.map_cons, List.map_nil, List.sum_cons, List.sum_nil]
    rw [upsertAction_sum]
    simp

theorem aggregate_def (fuel : ℕ) (tasks : List TaskInfo) :
    aggregate_by_hierarchy fuel tasks =
      ((tasks.filter (fun t => is_root_task (buildTaskMap tasks) t)).map
        (fun t => t.task_id)).dedup.foldl (aggStep fuel (buildTaskMap tasks)) (some []) := rfl

theorem agg_fold {tm : List TaskInfo} {fuel : ℕ} :
    ∀ (roots : List TaskInfo),
      (∀ r ∈ roots,
        tm.find? (fun u => u.task_id == r.task_id) = some r ∧
        ∃ out, accumulate_task_time fuel tm r = some out ∧
          out.2.1 = tm.countP (fun u => ancB tm tm.length u r)) →
      ∀ res0, ∃ res,
        (roots.map TaskInfo.task_id).foldl (aggStep fuel tm) (some res0) = some res ∧
        sum_task_counts res = sum_task_counts res0
          + (roots.map (fun r => tm.countP (fun u => ancB tm tm.length u r))).sum := by
  intro roots
  induction roots with
  | nil => intro _ res0; exact ⟨res0, rfl, by simp⟩
  | cons r rest ih =>
    intro h res0
    obtain ⟨hfind, out, hacc, hcnt⟩ := h r (List.mem_cons_self _ _)
    simp only [List.map_cons, List.foldl_cons]
    have hstep : aggStep fuel tm (some res0) r.task_id
        = some (upsertNodeEntry res0 r.node_id r.action out.1 out.2.1 out.2.2) := by
      simp only [aggStep, hfind, hacc]
    rw [hstep]
    obtain ⟨res, hres, hsum⟩ :=
      ih (fun r' hr' => h r' (List.mem_cons_of_mem _ hr'))
        (upsertNodeEntry res0 r.node_id r.action out.1 out.2.1 out.2.2)
    refine ⟨res, hres, ?_⟩
    rw [hsum, upsertNodeEntry_sum, hcnt]
    simp only [List.map_cons, List.sum_cons]
    omega

theorem map_one_sum {α : Type} : ∀ l : List α, (l.map (fun _ => (1:ℕ))).sum = l.length := by
  intro l
  induction l with
  | nil => rfl
  | cons a rest ih => simp [ih]; omega

theorem roots_exactly_one {tm : List TaskInfo}
    (hnd : (tm.map TaskInfo.task_id).Nodup)
    (hne : "" ∉ tm.map TaskInfo.task_id)
    (hroot : ∀ t ∈ tm, rootedB tm tm.length t = true)
    {u : TaskInfo} (hu : u ∈ tm) :
    ((tm.filter (fun t => is_root_task tm t)).map
      (fun r => if ancB tm tm.length u r = true then (1:ℕ) else 0)).sum = 1 := by
  obtain ⟨du, hdu, hr⟩ := rootedB_some tm.length u (hroot u hu)
  obtain ⟨r0, hup, hnone⟩ := chain_root hr
  have hr0mem : r0 ∈ tm := up_mem hu hup
  have hr0root : r0 ∈ tm.filter (fun t => is_root_task tm t) :=
    List.mem_filter.mpr ⟨hr0mem, parent_none_root hnone⟩
  have hlt : du < tm.length := rootedAt_lt_length hu hr
  refine map_exactly_one (List.Nodup.filter _ (List.Nodup.of_map _ hnd)) hr0root
    (ancB_complete hup hr hlt) ?_
  intro r' hr' hanc
  rcases List.mem_filter.mp hr' with ⟨hr'mem, hr'root⟩
  have hnone' : parent_of tm r' = none := root_parent_none hne hr'root
  have hup' : UpChain tm u r' := ancB_sound hnd tm.length hu hr'mem hanc
  rcases up_total hup' hup with hc | hc
  · exact up_antisym_depth hc (RootedAt.base hnone') (RootedAt.base hnone) rfl
  · exact (up_antisym_depth hc (RootedAt.base hnone) (RootedAt.base hnone')
      rfl).symm

theorem roots_count_total {tm : List TaskInfo}
    (hnd : (tm.map TaskInfo.task_id).Nodup)
    (hne : "" ∉ tm.map TaskInfo.task_id)
    (hroot : ∀ t ∈ tm, rootedB tm tm.length t = true) :
    ((tm.filter (fun t => is_root_task tm t)).map
      (fun r => tm.countP (fun u => ancB tm tm.length u r))).sum = tm.length := by
  have h1 : ((tm.filter (fun t => is_root_task tm t)).map
      (fun r => tm.countP (fun u => ancB tm tm.length u r))).sum
      = ((tm.filter (fun t => is_root_task tm t)).map
        (fun r => (tm.map (fun u => if ancB tm tm.length u r = true then (1:ℕ) else 0)).sum)).sum :=
    map_sum_congr (fun r _ => countP_eq_map_sum _ _)
  rw [h1, map_sum_swap (fun r u => if ancB tm tm.length u r = true then (1:ℕ) else 0) tm
    (tm.filter (fun t => is_root_task tm t))]
  rw [map_sum_congr (fun u hu => roots_exactly_one hnd hne hroot hu), map_one_sum]

theorem rootIds_dedup {tasks : List TaskInfo}
    (hnd : (tasks.map TaskInfo.task_id).Nodup) :
    ((tasks.filter (fun t => is_root_task tasks t)).map (fun t => t.task_id)).dedup
      = (tasks.filter (fun t => is_root_task tasks t)).map (fun t => t.task_id) := by
  apply List.dedup_eq_self.mpr
  exact hnd.sublist ((List.filter_sublist _).map (fun t : TaskInfo => t.task_id))

theorem roots_hyp {tasks : List TaskInfo}
    (hnd : (tasks.map TaskInfo.task_id).Nodup)
    (hne : "" ∉ tasks.map TaskInfo.task_id) :
    ∀ r ∈ tasks.filter (fun t => is_root_task tasks t),
      tasks.find? (fun u => u.task_id == r.task_id) = some r ∧
      ∃ out, accumulate_task_time tasks.length tasks r = some out ∧
        out.2.1 = tasks.countP (fun u => ancB tasks tasks.length u r) := by
  intro r hrmem
  rcases List.mem_filter.mp hrmem with ⟨hrt, hrroot⟩
  refine ⟨find_id_unique hnd hrt rfl, ?_⟩
  exact accumulate_count hnd tasks.length r 0 hrt
    (RootedAt.base (root_parent_none hne hrroot)) (by omega)

theorem accumulate_selfLoop_none :
    ∀ fuel, accumulate_task_time fuel [selfLoopTask] selfLoopTask = none := by
  intro fuel
  induction fuel with
  | zero => rfl
  | succ n ih =>
    rw [accumulate_succ]
    have hf : ([selfLoopTask].filter
        (fun c => c.parent_task_id == selfLoopTask.task_id)) = [selfLoopTask] := rfl
    rw [hf, List.foldl_cons, List.foldl_nil]
    simp [ih]

theorem agg_emptyId_none : ∀ fuel, aggregate_by_hierarchy fuel emptyIdTask = none := by
  intro fuel
  rw [aggregate_def]
  have htm : buildTaskMap emptyIdTask = emptyIdTask := rfl
  rw [htm]
  have hroots : ((emptyIdTask.filter (fun t => is_root_task emptyIdTask t)).map
      (fun t => t.task_id)).dedup = [""] := by decide
  rw [hroots, List.foldl_cons]
  have hacc : accumulate_task_time fuel emptyIdTask selfLoopTask = none :=
    accumulate_selfLoop_none fuel
  have hfind : emptyIdTask.find? (fun u => u.task_id == "") = some selfLoopTask := rfl
  have hstep : aggStep fuel emptyIdTask (some []) "" = none := by
    simp only [aggStep, hfind, hacc]
  rw [hstep, List.foldl_nil]

/-- C1 (corrected): hierarchical aggregation is count-conserving — the
task_count values summed over every produced root entry equal the number
of input records — provided the task ids are unique and non-empty and
every record's parent chain reaches a root (no cycles).  Dangling parent
references are fine (such records are themselves roots), but the code has
no seen-set: records on a parent cycle reach no root and are folded ZERO
times, not once, so conservation fails on cyclic batches. -/
theorem c1_count_conservation (tasks : List TaskInfo)
    (hnd : (tasks.map TaskInfo.task_id).Nodup)
    (hne : "" ∉ tasks.map TaskInfo.task_id)
    (hroot : ∀ t ∈ tasks, rootedB tasks tasks.length t = true) :
    ∃ res, aggregate_by_hierarchy tasks.length tasks = some res ∧
      sum_task_counts res = tasks.length := by
  rw [aggregate_def, buildTaskMap_eq_self hnd, rootIds_dedup hnd]
  obtain ⟨res, hres, hsum⟩ :=
    @agg_fold tasks tasks.length (tasks.filter (fun t => is_root_task tasks t))
      (roots_hyp hnd hne) []
  refine ⟨res, hres, ?_⟩
  rw [hsum, roots_count_total hnd hne hroot]
  have h0 : sum_task_counts [] = 0 := rfl
  omega

/-- C1 counterexample: a two-record parent cycle (t1 ↔ t2) yields no root
entries at all — the aggregate of the two-record batch sums to 0 task
counts, not 2, refuting count conservation "even when the batch's parent
references form cycles". -/
theorem c1_counterexample :
    (aggregate_by_hierarchy cycleTasks.length cycleTasks).map sum_task_counts = some 0 ∧
    cycleTasks.length = 2 ∧ (0 : ℕ) ≠ 2 := by decide

/-- C1 witness: the three-record root/child/grandchild batch satisfies the
hypotheses and its aggregate conserves the count 3. -/
theorem c1_witness :
    (scenarioTasks.map TaskInfo.task_id).Nodup ∧
    "" ∉ scenarioTasks.map TaskInfo.task_id ∧
    scenarioTasks.all (fun t => rootedB scenarioTasks scenarioTasks.length t) = true ∧
    (aggregate_by_hierarchy scenarioTasks.length scenarioTasks).map sum_task_counts
      = some scenarioTasks.length := by
  refine ⟨by decide, by decide, by decide, ?_⟩
  obtain ⟨res, hres, hsum⟩ :=
    c1_count_conservation scenarioTasks (by decide) (by decide) (by decide)
  rw [hres]
  simp [hsum]

/-- C8 (corrected): with unique, non-empty task ids the hierarchical
aggregation terminates (returns some) at fuel = batch size, even when
parent references form cycles, self-reference, or dangle: non-root cycles
are simply never reached from any root.  But the recursion has no
visited-set, and a record whose id is the empty string is classified as a
root while also being its own child, so on that batch the recursion never
terminates (no fuel suffices). -/
theorem c8_termination_amended (tasks : List TaskInfo)
    (hnd : (tasks.map TaskInfo.task_id).Nodup)
    (hne : "" ∉ tasks.map TaskInfo.task_id) :
    (aggregate_by_hierarchy tasks.length tasks).isSome = true := by
  rw [aggregate_def, buildTaskMap_eq_self hnd, rootIds_dedup hnd]
  obtain ⟨res, hres, _⟩ :=
    @agg_fold tasks tasks.length (tasks.filter (fun t => is_root_task tasks t))
      (roots_hyp hnd hne) []
  rw [hres]
  rfl

/-- C8 counterexample: the batch holding the single record with empty
task id (parent also empty) makes the aggregation diverge — it returns
none at every fuel, the fuel-model rendering of the Python recursion
never terminating. -/
theorem c8_counterexample : agg_diverges emptyIdTask := agg_emptyId_none

/-- C8 witness: the cyclic two-record batch has unique non-empty ids and
its aggregation terminates. -/
theorem c8_witness :
    (cycleTasks.map TaskInfo.task_id).Nodup ∧
    "" ∉ cycleTasks.map TaskInfo.task_id ∧
    (aggregate_by_hierarchy cycleTasks.length cycleTasks).isSome = true :=
  ⟨by decide, by decide, c8_termination_amended cycleTasks (by decide) (by decide)⟩

/-! ## Merge-key accounting: integer sum helpers -/

theorem map_sum_congr_z {α : Type} {f g : α → ℤ} :
    ∀ {l : List α}, (∀ x ∈ l, f x = g x) → (l.map f).sum = (l.map g).sum := by
  intro l
  induction l with
  | nil => intro _; rfl
  | cons a rest ih =>
    intro h
    rw [List.map_cons, List.map_cons, List.sum_cons, List.sum_cons,
      h a (List.mem_cons_self _ _), ih (fun x hx => h x (List.mem_cons_of_mem _ hx))]

theorem map_add_sum_z {α : Type} (f g : α → ℤ) :
    ∀ (l : List α), (l.map (fun a => f a + g a)).sum = (l.map f).sum + (l.map g).sum := by
  intro l
  induction l with
  | nil => simp
  | cons a rest ih =>
    simp only [List.map_cons, List.sum_cons, ih]
    ring

theorem map_sum_swap_z {α β : Type} (f : α → β → ℤ) :
    ∀ (l2 : List β) (l1 : List α),
      (l1.map (fun a => (l2.map (fun b => f a b)).sum)).sum
        = (l2.map (fun b => (l1.map (fun a => f a b)).sum)).sum := by
  intro l2
  induction l2 with
  | nil =>
    intro l1
    simp
  | cons b rest ih =>
    intro l1
    simp only [List.map_cons, List.sum_cons]
    rw [← ih l1]
    have := map_add_sum_z (fun a => f a b) (fun a => (rest.map (fun c => f a c)).sum) l1
    simp only at this ⊢
    rw [← this]

theorem map_all_zero_const {α : Type} {p : α → Prop} [DecidablePred p] {v : ℤ}
    {l : List α} (h : ∀ x ∈ l, ¬ p x) :
    (l.map (fun x => if p x then v else 0)).sum = 0 := by
  apply List.sum_eq_zero
  intro y hy
  rcases List.mem_map.mp hy with ⟨x, hx, hxy⟩
  rw [← hxy, if_neg (h x hx)]

theorem map_exactly_one_const {α : Type} {p : α → Prop} [DecidablePred p] (v : ℤ) :
    ∀ {l : List α}, l.Nodup → ∀ {c}, c ∈ l → p c → (∀ x ∈ l, p x → x = c) →
      (l.map (fun x => if p x then v else 0)).sum = v := by
  intro l
  induction l with
  | nil => intro _ c hc; exact absurd hc (List.not_mem_nil c)
  | cons a rest ih =>
    intro hnd c hc hpc huniq
    rw [List.map_cons, List.sum_cons]
    rcases List.mem_cons.mp hc with rfl | hc
    · rw [if_pos hpc]
      have hnone : ∀ x ∈ rest, ¬ p x := by
        intro x hx hpx
        have := huniq x (List.mem_cons_of_mem _ hx) hpx
        subst this
        exact (List.nodup_cons.mp hnd).1 hx
      rw [map_all_zero_const hnone]
      ring
    · have hac : ¬ p a := by
        intro hpa
        have := huniq a (List.mem_cons_self _ _) hpa
        subst this
        exact (List.nodup_cons.mp hnd).1 hc
      rw [if_neg hac, ih (List.nodup_cons.mp hnd).2 hc hpc
        (fun x hx hpx => huniq x (List.mem_cons_of_mem _ hx) hpx)]
      ring

theorem map_exactly_one_eq {α : Type} [DecidableEq α] (g : α → ℤ) :
    ∀ {l : List α}, l.Nodup → ∀ {t}, t ∈ l →
      (l.map (fun u => if u = t then g u else 0)).sum = g t := by
  intro l
  induction l with
  | nil => intro _ t ht; exact absurd ht (List.not_mem_nil t)
  | cons a rest ih =>
    intro hnd t ht
    rw [List.map_cons, List.sum_cons]
    rcases List.mem_cons.mp ht with rfl | ht
    · rw [if_pos rfl]
      have hzero : (rest.map (fun u => if u = t then g u else 0)).sum = 0 := by
        apply List.sum_eq_zero
        intro y hy
        rcases List.mem_map.mp hy with ⟨x, hx, hxy⟩
        have hxa : ¬ (x = t) := by
          intro h
          subst h
          exact (List.nodup_cons.mp hnd).1 hx
        rw [← hxy, if_neg hxa]
      rw [hzero]
      ring
    · have hat : ¬ (a = t) := by
        intro h
        subst h
        exact (List.nodup_cons.mp hnd).1 ht
      rw [if_neg hat, ih (List.nodup_cons.mp hnd).2 ht]
      ring

/-- The weighted form of the subtree decomposition: one record's weighted
contribution to the subtree of t splits into its contribution at t itself
plus its contribution below exactly one direct child of t. -/
theorem anc_pointwise_w {tm : List TaskInfo} (hnd : (tm.map TaskInfo.task_id).Nodup)
    (w : TaskInfo → ℤ)
    {t : TaskInfo} {dt : ℕ} (ht : t ∈ tm) (hrt : RootedAt tm dt t)
    {u : TaskInfo} (hu : u ∈ tm) :
    (if ancB tm tm.length u t = true then w u else 0)
      = (if u = t then w u else 0)
        + ((tm.filter (fun c => c.parent_task_id == t.task_id)).map
            (fun c => if ancB tm tm.length u c = true then w u else 0)).sum := by
  have hchild_mem : ∀ c, c ∈ tm.filter (fun c => c.parent_task_id == t.task_id) →
      c ∈ tm ∧ c.parent_task_id = t.task_id := by
    intro c hc
    rcases List.mem_filter.mp hc with ⟨h1, h2⟩
    exact ⟨h1, eq_of_beq h2⟩
  by_cases hroot : ∃ du, RootedAt tm du u
  · rcases hroot with ⟨du, hdu⟩
    by_cases hchain : UpChain tm u t
    · by_cases hut : u = t
      · subst hut
        rw [if_pos (ancB_complete (UpChain.refl u) hdu (rootedAt_lt_length hu hdu)),
          if_pos rfl]
        have hz := map_all_zero_const (v := w u)
          (p := fun c => ancB tm tm.length u c = true)
          (l := tm.filter (fun c => c.parent_task_id == u.task_id)) ?_
        · rw [hz]
          ring
        · intro c hc habs
          rcases hchild_mem c hc with ⟨hcm, hcp⟩
          have hcr : RootedAt tm (dt + 1) c := rootedAt_child hnd hrt hu hcp
          have hcu : UpChain tm u c := ancB_sound hnd tm.length hu hcm habs
          rcases chain_depth hcu hcr with ⟨du', hdu', hle, _⟩
          have h1 : du' = du := rootedAt_unique hdu' hdu
          have h2 : du = dt := rootedAt_unique hdu hrt
          omega
      · rw [if_pos (ancB_complete hchain hdu (rootedAt_lt_length hu hdu)), if_neg hut]
        rcases chain_child hchain hut with ⟨c0, hc0chain, hc0par⟩
        have hc0mem : c0 ∈ tm := up_mem hu hc0chain
        have hc0pred : c0.parent_task_id = t.task_id := (parent_of_id hc0par).symm
        have hc0filter : c0 ∈ tm.filter (fun c => c.parent_task_id == t.task_id) :=
          List.mem_filter.mpr ⟨hc0mem, beq_iff_eq.mpr hc0pred⟩
        have hsum := map_exactly_one_const (w u)
          (p := fun c => ancB tm tm.length u c = true)
          ((List.Nodup.of_map _ hnd).filter _) hc0filter
          (ancB_complete hc0chain hdu (rootedAt_lt_length hu hdu)) ?_
        · rw [hsum]
          ring
        · intro c' hc' hanc'
          rcases hchild_mem c' hc' with ⟨hc'm, hc'p⟩
          have hc'chain : UpChain tm u c' := ancB_sound hnd tm.length hu hc'm hanc'
          have hr0 : RootedAt tm (dt + 1) c0 := rootedAt_child hnd hrt ht hc0pred
          have hr' : RootedAt tm (dt + 1) c' := rootedAt_child hnd hrt ht hc'p
          rcases up_total hc'chain hc0chain with h | h
          · exact up_antisym_depth h hr' hr0 rfl
          · exact (up_antisym_depth h hr0 hr' rfl).symm
    · have hF : ¬ (ancB tm tm.length u t = true) :=
        fun habs => hchain (ancB_sound hnd tm.length hu ht habs)
      rw [if_neg hF, if_neg (fun h : u = t => hchain (h ▸ UpChain.refl u))]
      have hz := map_all_zero_const (v := w u)
        (p := fun c => ancB tm tm.length u c = true)
        (l := tm.filter (fun c => c.parent_task_id == t.task_id)) ?_
      · rw [hz]
        ring
      · intro c hc habs
        rcases hchild_mem c hc with ⟨hcm, hcp⟩
        have hcu : UpChain tm u c := ancB_sound hnd tm.length hu hcm habs
        have hct : UpChain tm c t :=
          UpChain.step (parent_of_child hnd ht hcp) (UpChain.refl t)
        exact hchain (up_trans hcu hct)
  · have hF : ¬ (ancB tm tm.length u t = true) := by
      intro habs
      have hcu := ancB_sound hnd tm.length hu ht habs
      rcases chain_depth hcu hrt with ⟨du, hdu, _, _⟩
      exact hroot ⟨du, hdu⟩
    have hut : ¬ (u = t) := by
      intro h
      subst h
      exact hroot ⟨dt, hrt⟩
    rw [if_neg hF, if_neg hut]
    have hz := map_all_zero_const (v := w u)
      (p := fun c => ancB tm tm.length u c = true)
      (l := tm.filter (fun c => c.parent_task_id == t.task_id)) ?_
    · rw [hz]
      ring
    · intro c hc habs
      rcases hchild_mem c hc with ⟨hcm, hcp⟩
      have hcu : UpChain tm u c := ancB_sound hnd tm.length hu hcm habs
      have hcr : RootedAt tm (dt + 1) c := rootedAt_child hnd hrt ht hcp
      rcases chain_depth hcu hcr with ⟨du, hdu, _, _⟩
      exact hroot ⟨du, hdu⟩

theorem subtreeKeyTime_split {tm : List TaskInfo}
    (hnd : (tm.map TaskInfo.task_id).Nodup)
    {t : TaskInfo} {dt : ℕ} (ht : t ∈ tm) (hrt : RootedAt tm dt t)
    (k : String × String) :
    subtreeKeyTime tm t k
      = keyWeight t k
        + ((tm.filter (fun c => c.parent_task_id == t.task_id)).map
            (fun c => subtreeKeyTime tm c k)).sum := by
  rw [subtreeKeyTime]
  rw [map_sum_congr_z (fun u hu => anc_pointwise_w hnd (fun v => keyWeight v k) ht hrt hu)]
  rw [map_add_sum_z]
  have h1 : (tm.map (fun u => if u = t then keyWeight u k else 0)).sum = keyWeight t k :=
    map_exactly_one_eq (fun u => keyWeight u k) (List.Nodup.of_map _ hnd) ht
  rw [h1]
  have h2 : (tm.map (fun u =>
      ((tm.filter (fun c => c.parent_task_id == t.task_id)).map
        (fun c => if ancB tm tm.length u c = true then keyWeight u k else 0)).sum)).sum
    = ((tm.filter (fun c => c.parent_task_id == t.task_id)).map
        (fun c => (tm.map
          (fun u => if ancB tm tm.length u c = true then keyWeight u k else 0)).sum)).sum :=
    map_sum_swap_z (fun u c => if ancB tm tm.length u c = true then keyWeight u k else 0) _ tm
  rw [h2]
  congr 1

theorem anc_cases {tm : List TaskInfo} (hnd : (tm.map TaskInfo.task_id).Nodup)
    {t : TaskInfo} {dt : ℕ} (ht : t ∈ tm) (hrt : RootedAt tm dt t)
    {u : TaskInfo} (hu : u ∈ tm) :
    ancB tm tm.length u t = true
      ↔ u = t ∨ ∃ c ∈ tm.filter (fun c => c.parent_task_id == t.task_id),
          ancB tm tm.length u c = true := by
  constructor
  · intro h
    have hchain : UpChain tm u t := ancB_sound hnd tm.length hu ht h
    by_cases hut : u = t
    · exact Or.inl hut
    · rcases chain_child hchain hut with ⟨c0, hc0chain, hc0par⟩
      have hc0mem : c0 ∈ tm := up_mem hu hc0chain
      have hc0pred : c0.parent_task_id = t.task_id := (parent_of_id hc0par).symm
      rcases chain_depth hchain hrt with ⟨du, hdu, _, _⟩
      exact Or.inr ⟨c0, List.mem_filter.mpr ⟨hc0mem, beq_iff_eq.mpr hc0pred⟩,
        ancB_complete hc0chain hdu (rootedAt_lt_length hu hdu)⟩
  · intro h
    rcases h with rfl | ⟨c, hc, hanc⟩
    · exact ancB_complete (UpChain.refl u) hrt (rootedAt_lt_length ht hrt)
    · rcases List.mem_filter.mp hc with ⟨hcm, hcp⟩
      have hcu : UpChain tm u c := ancB_sound hnd tm.length hu hcm hanc
      have hct : UpChain tm c t :=
        UpChain.step (parent_of_child hnd ht (eq_of_beq hcp)) (UpChain.refl t)
      have hutc : UpChain tm u t := up_trans hcu hct
      have hcr : RootedAt tm (dt + 1) c := rootedAt_child hnd hrt ht (eq_of_beq hcp)
      rcases chain_depth hcu hcr with ⟨du, hdu, _, _⟩
      exact ancB_complete hutc hdu (rootedAt_lt_length hu hdu)

theorem subtree_mem_split {tm : List TaskInfo}
    (hnd : (tm.map TaskInfo.task_id).Nodup)
    {t : TaskInfo} {dt : ℕ} (ht : t ∈ tm) (hrt : RootedAt tm dt t)
    (k : String × String) :
    (∃ u ∈ tm, ancB tm tm.length u t = true ∧ u.description ≠ "" ∧ taskKey u = k)
      ↔ (t.description ≠ "" ∧ taskKey t = k)
        ∨ ∃ c ∈ tm.filter (fun c => c.parent_task_id == t.task_id),
            ∃ u ∈ tm, ancB tm tm.length u c = true ∧ u.description ≠ "" ∧ taskKey u = k := by
  constructor
  · rintro ⟨u, hu, hanc, hdesc, hkey⟩
    rcases (anc_cases hnd ht hrt hu).mp hanc with rfl | ⟨c, hc, hanc'⟩
    · exact Or.inl ⟨hdesc, hkey⟩
    · exact Or.inr ⟨c, hc, u, hu, hanc', hdesc, hkey⟩
  · rintro (⟨hdesc, hkey⟩ | ⟨c, hc, u, hu, hanc, hdesc, hkey⟩)
    · exact ⟨t, ht, (anc_cases hnd ht hrt ht).mpr (Or.inl rfl), hdesc, hkey⟩
    · exact ⟨u, hu, (anc_cases hnd ht hrt hu).mpr (Or.inr ⟨c, hc, hanc⟩), hdesc, hkey⟩

theorem keyTime_nil (k : String × String) : keyTime [] k = 0 := rfl

theorem keyTime_cons (c : ChildInfo) (cs : List ChildInfo) (k : String × String) :
    keyTime (c :: cs) k = (if childKey c = k then c.time else 0) + keyTime cs k := by
  by_cases h : childKey c = k
  · simp [keyTime, List.filter_cons, h]
  · simp [keyTime, List.filter_cons, h]

theorem keyTime_append (l1 l2 : List ChildInfo) (k : String × String) :
    keyTime (l1 ++ l2) k = keyTime l1 k + keyTime l2 k := by
  rw [keyTime, keyTime, keyTime, List.filter_append, List.map_append, List.sum_append]

theorem keyTime_perm {l1 l2 : List ChildInfo} (h : l1.Perm l2) (k : String × String) :
    keyTime l1 k = keyTime l2 k := by
  rw [keyTime, keyTime]
  exact ((h.filter _).map _).sum_eq

theorem keyTimeA_nil (k : String × String) : keyTimeA [] k = 0 := rfl

theorem keyTimeA_cons (q : (String × String) × ChildInfo)
    (l : List ((String × String) × ChildInfo)) (k : String × String) :
    keyTimeA (q :: l) k = (if q.1 = k then q.2.time else 0) + keyTimeA l k := by
  by_cases h : q.1 = k
  · simp [keyTimeA, List.filter_cons, h]
  · simp [keyTimeA, List.filter_cons, h]

theorem keyTimeA_append (l1 l2 : List ((String × String) × ChildInfo)) (k : String × String) :
    keyTimeA (l1 ++ l2) k = keyTimeA l1 k + keyTimeA l2 k := by
  rw [keyTimeA, keyTimeA, keyTimeA, List.filter_append, List.map_append, List.sum_append]

theorem mergeUpdateFirst_keys (key : String × String) (d : ℤ) :
    ∀ (acc : List ((String × String) × ChildInfo)),
      (mergeUpdateFirst key d acc).map Prod.fst = acc.map Prod.fst := by
  intro acc
  induction acc with
  | nil => rfl
  | cons q rest ih =>
    rw [mergeUpdateFirst]
    by_cases h : (q.1 == key) = true
    · simp [h]
    · simp [h, ih]

theorem mergeUpdateFirst_inv {key : String × String} {d : ℤ} :
    ∀ (acc : List ((String × String) × ChildInfo)),
      (∀ p ∈ acc, p.1 = childKey p.2) →
      ∀ p ∈ mergeUpdateFirst key d acc, p.1 = childKey p.2 := by
  intro acc
  induction acc with
  | nil => intro _ p hp; exact absurd hp (List.not_mem_nil p)
  | cons q rest ih =>
    intro hinv p hp
    rw [mergeUpdateFirst] at hp
    by_cases h : (q.1 == key) = true
    · rw [if_pos h] at hp
      rcases List.mem_cons.mp hp with rfl | hp
      · exact hinv q (List.mem_cons_self _ _)
      · exact hinv p (List.mem_cons_of_mem _ hp)
    · rw [if_neg h] at hp
      rcases List.mem_cons.mp hp with rfl | hp
      · exact hinv _ (List.mem_cons_self _ _)
      · exact ih (fun r hr => hinv r (List.mem_cons_of_mem _ hr)) p hp

theorem mergeUpdateFirst_keyTimeA {key : String × String} {d : ℤ} :
    ∀ (acc : List ((String × String) × ChildInfo)),
      acc.any (fun p => p.1 == key) = true →
      ∀ k, keyTimeA (mergeUpdateFirst key d acc) k
        = keyTimeA acc k + (if key = k then d else 0) := by
  intro acc
  induction acc with
  | nil => intro h; simp at h
  | cons q rest ih =>
    intro h k
    rw [mergeUpdateFirst]
    by_cases hq : (q.1 == key) = true
    · rw [if_pos hq, keyTimeA_cons, keyTimeA_cons]
      have hqk : q.1 = key := eq_of_beq hq
      simp only [hqk]
      by_cases hk : key = k
      · simp only [hk, eq_self_iff_true, ite_true]
        ring
      · simp only [if_neg hk]
        ring
    · rw [if_neg hq, keyTimeA_cons, keyTimeA_cons]
      have hrest : rest.any (fun p => p.1 == key) = true := by
        rcases List.any_eq_true.mp h with ⟨p, hp, hpk⟩
        rcases List.mem_cons.mp hp with rfl | hp
        · exact absurd hpk (by simpa using hq)
        · exact List.any_eq_true.mpr ⟨p, hp, hpk⟩
      rw [ih hrest k]
      ring

/-- One merge-loop step: the key map stays keyed by childKey with unique
keys, the per-key total cost grows by exactly the inserted summary's cost
at its own key (summing on collision, inserting otherwise), and exactly
the inserted summary's key joins the key set. -/
theorem mergeInsertChild_spec (acc : List ((String × String) × ChildInfo)) (c : ChildInfo)
    (hinv : ∀ p ∈ acc, p.1 = childKey p.2)
    (hnd : (acc.map Prod.fst).Nodup) :
    (∀ p ∈ mergeInsertChild acc c, p.1 = childKey p.2) ∧
    ((mergeInsertChild acc c).map Prod.fst).Nodup ∧
    (∀ k, keyTimeA (mergeInsertChild acc c) k
      = keyTimeA acc k + (if childKey c = k then c.time else 0)) ∧
    (∀ k, k ∈ (mergeInsertChild acc c).map Prod.fst
      ↔ k ∈ acc.map Prod.fst ∨ childKey c = k) := by
  by_cases hany : acc.any (fun p => p.1 == childKey c) = true
  · have hmic : mergeInsertChild acc c = mergeUpdateFirst (childKey c) c.time acc := by
      rw [mergeInsertChild, if_pos hany]
    rw [hmic]
    refine ⟨mergeUpdateFirst_inv acc hinv, ?_, ?_, ?_⟩
    · rw [mergeUpdateFirst_keys]
      exact hnd
    · intro k
      rw [mergeUpdateFirst_keyTimeA acc hany k]
    · intro k
      rw [mergeUpdateFirst_keys]
      constructor
      · exact Or.inl
      · rintro (h | h)
        · exact h
        · rcases List.any_eq_true.mp hany with ⟨p, hp, hpk⟩
          exact List.mem_map.mpr ⟨p, hp, (eq_of_beq hpk).trans h⟩
  · have hmic : mergeInsertChild acc c = acc ++ [(childKey c,
        { c with normalized_action := some (normalize_action_for_merge c.action) })] := by
      rw [mergeInsertChild, if_neg hany]
    rw [hmic]
    have hnotin : childKey c ∉ acc.map Prod.fst := by
      intro hmem
      rcases List.mem_map.mp hmem with ⟨p, hp, hfst⟩
      exact hany (List.any_eq_true.mpr ⟨p, hp, beq_iff_eq.mpr hfst⟩)
    refine ⟨?_, ?_, ?_, ?_⟩
    · intro p hp
      rcases List.mem_append.mp hp with hp | hp
      · exact hinv p hp
      · rcases List.mem_singleton.mp hp with rfl
        rfl
    · rw [List.map_append]
      rw [List.nodup_append]
      refine ⟨hnd, List.nodup_singleton _, ?_⟩
      intro a ha hb
      rcases List.mem_singleton.mp hb with rfl
      exact hnotin ha
    · intro k
      rw [keyTimeA_append, keyTimeA_cons, keyTimeA_nil]
      by_cases hk : childKey c = k
      · simp only [hk, eq_self_iff_true, ite_true]
        ring
      · simp only [if_neg hk]
        ring
    · intro k
      rw [List.map_append, List.mem_append]
      constructor
      · rintro (h | h)
        · exact Or.inl h
        · right
          have : k ∈ [childKey c] := by simpa using h
          exact (List.mem_singleton.mp this).symm
      · rintro (h | h)
        · exact Or.inl h
        · right
          simp [h]

/-- The whole merge loop: the folded key map is keyed by childKey with
unique keys, carries for each merge key the total cost of the incoming
summaries with that key, and carries exactly the incoming keys. -/
theorem mergeFold_spec :
    ∀ (cs : List ChildInfo) (acc : List ((String × String) × ChildInfo)),
      (∀ p ∈ acc, p.1 = childKey p.2) → (acc.map Prod.fst).Nodup →
      (∀ p ∈ cs.foldl mergeInsertChild acc, p.1 = childKey p.2) ∧
      ((cs.foldl mergeInsertChild acc).map Prod.fst).Nodup ∧
      (∀ k, keyTimeA (cs.foldl mergeInsertChild acc) k = keyTimeA acc k + keyTime cs k) ∧
      (∀ k, k ∈ (cs.foldl mergeInsertChild acc).map Prod.fst
        ↔ k ∈ acc.map Prod.fst ∨ k ∈ cs.map childKey) := by
  intro cs
  induction cs with
  | nil =>
    intro acc hinv hnd
    refine ⟨hinv, hnd, fun k => ?_, fun k => ?_⟩
    · rw [List.foldl_nil, keyTime_nil]
      ring
    · rw [List.foldl_nil]
      simp
  | cons c cs ih =>
    intro acc hinv hnd
    rw [List.foldl_cons]
    obtain ⟨hinvS, hndS, htimeS, hmemS⟩ := mergeInsertChild_spec acc c hinv hnd
    obtain ⟨ih1, ih2, ih3, ih4⟩ := ih (mergeInsertChild acc c) hinvS hndS
    refine ⟨ih1, ih2, fun k => ?_, fun k => ?_⟩
    · rw [ih3 k, htimeS k, keyTime_cons]
      ring
    · rw [ih4 k, hmemS k, List.map_cons, List.mem_cons]
      constructor
      · rintro ((h | h) | h)
        · exact Or.inl h
        · exact Or.inr (Or.inl h.symm)
        · exact Or.inr (Or.inr h)
      · rintro (h | h | h)
        · exact Or.inl (Or.inl h)
        · exact Or.inl (Or.inr h.symm)
        · exact Or.inr h

theorem keyTimeA_snd :
    ∀ (acc : List ((String × String) × ChildInfo)),
      (∀ p ∈ acc, p.1 = childKey p.2) →
      ∀ k, keyTime (acc.map Prod.snd) k = keyTimeA acc k := by
  intro acc
  induction acc with
  | nil => intro _ k; rfl
  | cons q rest ih =>
    intro hinv k
    rw [List.map_cons, keyTime_cons, keyTimeA_cons,
      ih (fun p hp => hinv p (List.mem_cons_of_mem _ hp)) k,
      hinv q (List.mem_cons_self _ _)]

theorem keys_snd :
    ∀ (acc : List ((String × String) × ChildInfo)),
      (∀ p ∈ acc, p.1 = childKey p.2) →
      (acc.map Prod.snd).map childKey = acc.map Prod.fst := by
  intro acc
  induction acc with
  | nil => intro _; rfl
  | cons q rest ih =>
    intro hinv
    rw [List.map_cons, List.map_cons, List.map_cons,
      ih (fun p hp => hinv p (List.mem_cons_of_mem _ hp)),
      hinv q (List.mem_cons_self _ _)]

/-- The merged children list carries each (normalized category,
annotation) merge key at most once: colliding summaries are actually
merged, never kept side by side. -/
theorem merge_children_keys_nodup (cs : List ChildInfo) :
    ((merge_children cs).map childKey).Nodup := by
  obtain ⟨hinv, hnd, _, _⟩ := mergeFold_spec cs []
    (fun p hp => absurd hp (List.not_mem_nil p)) (by simp)
  rw [merge_children]
  have hperm := (sortStableDescBy_perm (fun a b : ChildInfo => decide (a.time ≤ b.time))
    ((cs.foldl mergeInsertChild []).map Prod.snd)).map childKey
  rw [hperm.nodup_iff, keys_snd _ hinv]
  exact hnd

/-- Merging conserves the total cost at every merge key: colliding
summaries are merged by SUMMING their costs. -/
theorem merge_children_keyTime (cs : List ChildInfo) (k : String × String) :
    keyTime (merge_children cs) k = keyTime cs k := by
  obtain ⟨hinv, _, htime, _⟩ := mergeFold_spec cs []
    (fun p hp => absurd hp (List.not_mem_nil p)) (by simp)
  rw [merge_children,
    keyTime_perm (sortStableDescBy_perm (fun a b : ChildInfo => decide (a.time ≤ b.time))
      ((cs.foldl mergeInsertChild []).map Prod.snd)) k,
    keyTimeA_snd _ hinv k, htime k, keyTimeA_nil]
  ring

/-- Merging neither invents nor loses merge keys. -/
theorem merge_children_mem (cs : List ChildInfo) (k : String × String) :
    (∃ c ∈ merge_children cs, childKey c = k) ↔ ∃ c ∈ cs, childKey c = k := by
  rw [← List.mem_map, ← List.mem_map]
  obtain ⟨hinv, _, _, hmem⟩ := mergeFold_spec cs []
    (fun p hp => absurd hp (List.not_mem_nil p)) (by simp)
  rw [merge_children]
  have hperm := (sortStableDescBy_perm (fun a b : ChildInfo => decide (a.time ≤ b.time))
    ((cs.foldl mergeInsertChild []).map Prod.snd)).map childKey
  rw [hperm.mem_iff, keys_snd _ hinv, hmem k]
  simp

/-- The accumulated summary list of a rooted task carries, at every merge
key, exactly the total cost of the non-empty-annotation records of its
subtree with that key, and carries a key exactly when such a record
exists: every folded record with non-empty annotation is collected, and
collisions are merged by summing. -/
theorem accumulate_mkey {tm : List TaskInfo} (hnd : (tm.map TaskInfo.task_id).Nodup) :
    ∀ (fuel : ℕ) (t : TaskInfo) (dt : ℕ), t ∈ tm → RootedAt tm dt t →
      tm.length ≤ dt + fuel →
      ∃ r, accumulate_task_time fuel tm t = some r ∧
        (∀ k, keyTime r.2.2 k = subtreeKeyTime tm t k) ∧
        (∀ k, (∃ c ∈ r.2.2, childKey c = k) ↔
          ∃ u ∈ tm, ancB tm tm.length u t = true ∧ u.description ≠ "" ∧ taskKey u = k) := by
  intro fuel
  induction fuel with
  | zero =>
    intro t dt ht hrt hlen
    exact absurd (rootedAt_lt_length ht hrt) (by omega)
  | succ n ih =>
    intro t dt ht hrt hlen
    have hchildren : ∀ c ∈ tm.filter (fun c => c.parent_task_id == t.task_id),
        ∃ rc, accumulate_task_time n tm c = some rc ∧
          (∀ k, keyTime rc.2.2 k = subtreeKeyTime tm c k) ∧
          (∀ k, (∃ x ∈ rc.2.2, childKey x = k) ↔
            ∃ u ∈ tm, ancB tm tm.length u c = true ∧ u.description ≠ "" ∧ taskKey u = k) := by
      intro c hc
      rcases List.mem_filter.mp hc with ⟨hcm, hcp⟩
      exact ih c (dt + 1) hcm (rootedAt_child hnd hrt ht (eq_of_beq hcp)) (by omega)
    have hfold : ∀ (cl : List TaskInfo),
        (∀ c ∈ cl, ∃ rc, accumulate_task_time n tm c = some rc ∧
          (∀ k, keyTime rc.2.2 k = subtreeKeyTime tm c k) ∧
          (∀ k, (∃ x ∈ rc.2.2, childKey x = k) ↔
            ∃ u ∈ tm, ancB tm tm.length u c = true ∧ u.description ≠ "" ∧ taskKey u = k)) →
        ∀ (acc : ℤ × ℕ × List ChildInfo),
        ∃ T C L,
          cl.foldl
            (fun acc c =>
              match acc with
              | none => none
              | some r =>
                match accumulate_task_time n tm c with
                | none => none
                | some s => some (r.1 + s.1, r.2.1 + s.2.1, r.2.2 ++ s.2.2))
            (some acc) = some (T, C, L) ∧
          (∀ k, keyTime L k = keyTime acc.2.2 k
            + (cl.map (fun c => subtreeKeyTime tm c k)).sum) ∧
          (∀ k, (∃ x ∈ L, childKey x = k) ↔ (∃ x ∈ acc.2.2, childKey x = k)
            ∨ ∃ c ∈ cl, ∃ u ∈ tm, ancB tm tm.length u c = true
                ∧ u.description ≠ "" ∧ taskKey u = k) := by
      intro cl
      induction cl with
      | nil =>
        intro _ acc
        refine ⟨acc.1, acc.2.1, acc.2.2, rfl, fun k => by simp, fun k => by simp⟩
      | cons c cl ihc =>
        intro hall acc
        rcases hall c (List.mem_cons_self _ _) with ⟨rc, hrc, hrckey, hrcmem⟩
        rw [List.foldl_cons]
        rcases ihc (fun d hd => hall d (List.mem_cons_of_mem _ hd))
          (acc.1 + rc.1, acc.2.1 + rc.2.1, acc.2.2 ++ rc.2.2) with ⟨T, C, L, hfd, hTk, hTm⟩
        refine ⟨T, C, L, ?_, ?_, ?_⟩
        · rw [hrc]
          exact hfd
        · intro k
          rw [hTk k]
          simp only
          rw [keyTime_append, hrckey k, List.map_cons, List.sum_cons]
          ring
        · intro k
          rw [hTm k]
          simp only
          constructor
          · rintro (⟨x, hx, hxk⟩ | ⟨d, hd, hrest⟩)
            · rcases List.mem_append.mp hx with hx | hx
              · exact Or.inl ⟨x, hx, hxk⟩
              · exact Or.inr ⟨c, List.mem_cons_self _ _, (hrcmem k).mp ⟨x, hx, hxk⟩⟩
            · exact Or.inr ⟨d, List.mem_cons_of_mem _ hd, hrest⟩
          · rintro (⟨x, hx, hxk⟩ | ⟨d, hd, hrest⟩)
            · exact Or.inl ⟨x, List.mem_append.mpr (Or.inl hx), hxk⟩
            · rcases List.mem_cons.mp hd with rfl | hd
              · rcases (hrcmem k).mpr hrest with ⟨x, hx, hxk⟩
                exact Or.inl ⟨x, List.mem_append.mpr (Or.inr hx), hxk⟩
              · exact Or.inr ⟨d, hd, hrest⟩
    rcases hfold (tm.filter (fun c => c.parent_task_id == t.task_id)) hchildren
      (t.running_time_nanos, 1,
        if t.description = "" then []
        else [⟨t.running_time_nanos, t.description, t.action, none⟩]) with
      ⟨T, C, L, hfd, hLk, hLm⟩
    have hself : ∀ k, keyTime (if t.description = "" then ([] : List ChildInfo)
        else [⟨t.running_time_nanos, t.description, t.action, none⟩]) k = keyWeight t k := by
      intro k
      by_cases hd : t.description = ""
      · rw [if_pos hd, keyTime_nil, keyWeight, if_neg]
        rintro ⟨h1, _⟩
        exact h1 hd
      · rw [if_neg hd, keyTime_cons, keyTime_nil, keyWeight]
        have hck : childKey ⟨t.running_time_nanos, t.description, t.action, none⟩
            = taskKey t := rfl
        rw [hck]
        by_cases hk : taskKey t = k
        · rw [if_pos hk, if_pos ⟨hd, hk⟩]
          ring
        · rw [if_neg hk, if_neg (fun h => hk h.2)]
          ring
    have hselfm : ∀ k, (∃ x ∈ (if t.description = "" then ([] : List ChildInfo)
        else [⟨t.running_time_nanos, t.description, t.action, none⟩]), childKey x = k)
        ↔ (t.description ≠ "" ∧ taskKey t = k) := by
      intro k
      by_cases hd : t.description = ""
      · rw [if_pos hd]
        constructor
        · rintro ⟨x, hx, _⟩
          exact absurd hx (List.not_mem_nil x)
        · rintro ⟨h1, _⟩
          exact absurd hd h1
      · rw [if_neg hd]
        constructor
        · rintro ⟨x, hx, hxk⟩
          rcases List.mem_singleton.mp hx with rfl
          exact ⟨hd, hxk⟩
        · rintro ⟨h1, hk⟩
          exact ⟨⟨t.running_time_nanos, t.description, t.action, none⟩,
            List.mem_singleton.mpr rfl, hk⟩
    refine ⟨(T, C, merge_children L), ?_, ?_, ?_⟩
    · rw [accumulate_succ, hfd]
      rfl
    · intro k
      simp only
      rw [merge_children_keyTime L k, hLk k]
      simp only
      rw [hself k, subtreeKeyTime_split hnd ht hrt k]
    · intro k
      simp only
      rw [merge_children_mem L k, hLm k]
      simp only
      rw [hselfm k, subtree_mem_split hnd ht hrt k]

/-! ## Claim C3 -/

/-- C3 (amended): every accumulated summary list is sorted by cost
descending and carries each (normalized category, annotation) merge key
at most once; for a batch with unique task ids and a rooted record t the
summary list accumulated at t carries, at every merge key, exactly the
total cost of the non-empty-annotation records of t's subtree with that
key — every folded record with a non-empty annotation is collected, and
summaries colliding on (normalized category, annotation) are merged by
summing their costs — and carries a key exactly when such a record
exists (a record with an empty annotation is folded into cost and count
but yields no summary).  The R/C/G scenario yields one entry keyed by
R's (owner, category) with total cost 17, count 3 and descendants
[C(10), R(5), G(2)]; the two-record batch whose actions "act[s]" and
"act[p]" normalize to the same category with equal annotations yields a
single merged summary with summed cost 11. -/
theorem c3_descendants_amended :
    (∀ (fuel : ℕ) (tm : List TaskInfo) (t : TaskInfo) (r : ℤ × ℕ × List ChildInfo),
      accumulate_task_time fuel tm t = some r →
      r.2.2.Pairwise (fun a b => b.time ≤ a.time)) ∧
    (∀ (fuel : ℕ) (tm : List TaskInfo) (t : TaskInfo) (r : ℤ × ℕ × List ChildInfo),
      accumulate_task_time fuel tm t = some r →
      (r.2.2.map childKey).Nodup) ∧
    (∀ (tm : List TaskInfo) (t : TaskInfo) (dt fuel : ℕ) (r : ℤ × ℕ × List ChildInfo),
      (tm.map TaskInfo.task_id).Nodup → t ∈ tm → RootedAt tm dt t →
      tm.length ≤ dt + fuel → accumulate_task_time fuel tm t = some r →
      (∀ k, keyTime r.2.2 k = subtreeKeyTime tm t k) ∧
      (∀ k, (∃ c ∈ r.2.2, childKey c = k) ↔
        ∃ u ∈ tm, ancB tm tm.length u t = true ∧ u.description ≠ "" ∧ taskKey u = k)) ∧
    aggregate_by_hierarchy 3 scenarioTasks =
      some [("n1", [("actR",
        ⟨17, 3, "",
         [⟨10, "dC", "actC", some "actC"⟩,
          ⟨5, "dR", "actR", some "actR"⟩,
          ⟨2, "dG", "actG", some "actG"⟩]⟩)])] ∧
    aggregate_by_hierarchy 2 collideTasks =
      some [("n1", [("act[s]", ⟨11, 2, "", [⟨11, "dA", "act[s]", some "act"⟩]⟩)])] := by
  refine ⟨?_, ?_, ?_, by decide, by decide⟩
  · intro fuel tm t r h
    match fuel with
    | 0 => exact absurd h (by rw [accumulate_task_time]; simp)
    | fuel + 1 =>
      rw [accumulate_task_time] at h
      rcases Option.map_eq_some'.mp h with ⟨s, _, hs⟩
      have : r.2.2 = merge_children s.2.2 := by rw [← hs]
      rw [this]
      exact merge_children_sorted s.2.2
  · intro fuel tm t r h
    match fuel with
    | 0 => exact absurd h (by rw [accumulate_task_time]; simp)
    | fuel + 1 =>
      rw [accumulate_task_time] at h
      rcases Option.map_eq_some'.mp h with ⟨s, _, hs⟩
      have : r.2.2 = merge_children s.2.2 := by rw [← hs]
      rw [this]
      exact merge_children_keys_nodup s.2.2
  · intro tm t dt fuel r hnd ht hrt hlen hacc
    obtain ⟨r', hr', hkey, hmem⟩ := accumulate_mkey hnd fuel t dt ht hrt hlen
    have heq : r' = r := by
      rw [hr'] at hacc
      exact Option.some.inj hacc
    subst heq
    exact ⟨hkey, hmem⟩

/-- C3 counterexample: a single root record with an empty annotation is
folded (occurrence count 1) yet contributes no descendant summary, so the
aggregator does not collect EVERY folded record's (cost, category,
annotation). -/
theorem c3_counterexample :
    aggregate_by_hierarchy 1 emptyDescTask
      = some [("n1", [("a1", ⟨5, 1, "", []⟩)])] := by decide

/-- C3 witness: on the colliding two-record batch the accumulated summary
at the root carries, at the colliding key ("act", "dA"), the summed
subtree cost, which evaluates to 7 + 4 = 11. -/
theorem c3_witness :
    keyTime [⟨11, "dA", "act[s]", some "act"⟩] ("act", "dA")
        = subtreeKeyTime collideTasks ⟨"n1", "n1", "act[s]", "dA", 7, "t1", ""⟩ ("act", "dA") ∧
    subtreeKeyTime collideTasks ⟨"n1", "n1", "act[s]", "dA", 7, "t1", ""⟩ ("act", "dA") = 11 := by
  constructor
  · have h := c3_descendants_amended.2.2.1 collideTasks
      ⟨"n1", "n1", "act[s]", "dA", 7, "t1", ""⟩ 0 2
      (11, 2, [⟨11, "dA", "act[s]", some "act"⟩])
      (by decide) (by decide) (RootedAt.base (by decide)) (by decide) (by decide)
    exact h.1 ("act", "dA")
  · decide
